import Mathlib

/-!
# Verification of the SRA metadata validation engine

A shallow embedding, over `List Char` strings, of the field normalizers,
table validator, cross-table reconciler and file-existence resolver of the
`sra-submission-tools` repository, together with proofs of the specified
properties.  Python strings are modelled as `List Char` (ASCII-faithful:
Python's Unicode-aware `str.strip`, `str.lower` and `re` character classes
are modelled on their ASCII fragments, which is the alphabet all inputs in
this code base use).  `pandas` cell values are modelled as strings, with a
missing value (`NaN`) conflated with the empty string wherever the source
treats the two identically.
-/

namespace SRA

/-- ASCII whitespace, as stripped by Python's `str.strip()`. -/
def isPySpace (c : Char) : Bool :=
  c = ' ' || c = '\t' || c = '\n' || c = '\x0d' || c = '\x0b' || c = '\x0c'

/-- ASCII decimal digit, the (ASCII fragment of the) `re` class `\d`. -/
def isDigitA (c : Char) : Bool := '0' ≤ c && c ≤ '9'

/-- ASCII letter, the `re` class `[A-Za-z]`. -/
def isAlphaA (c : Char) : Bool := ('A' ≤ c && c ≤ 'Z') || ('a' ≤ c && c ≤ 'z')

/-- The `re` class `[A-Za-z\s]` used by the geographic-location regexes. -/
def isAlphaSpace (c : Char) : Bool := isAlphaA c || isPySpace c

/-- ASCII lower-casing of one character, as in Python `str.lower()`. -/
def lowerC (c : Char) : Char :=
  if 'A' ≤ c && c ≤ 'Z' then Char.ofNat (c.toNat + 32) else c

/-- String lower-casing. -/
def lowerL (l : List Char) : List Char := l.map lowerC

/-- Recursive removal of trailing whitespace (the tail half of `strip`). -/
def dropTrailing : List Char → List Char
  | [] => []
  | c :: rest =>
    let r := dropTrailing rest
    if r = [] ∧ isPySpace c then [] else c :: r

/-- Python `str.strip()`: drop leading and trailing whitespace. -/
def pyStrip (l : List Char) : List Char :=
  dropTrailing (l.dropWhile isPySpace)

/-- `str.zfill(2)`: left-pad with `'0'` to width two. -/
def zfill2 (l : List Char) : List Char :=
  if l.length ≥ 2 then l else if l.length = 1 then '0' :: l else ['0', '0']

/-- Python `int(s)` on a non-empty all-digit string; `none` models the
`ValueError` raised on anything else. -/
def digitsToNat? (l : List Char) : Option Nat :=
  if l ≠ [] ∧ l.all isDigitA then
    some (l.foldl (fun acc c => 10 * acc + (c.toNat - '0'.toNat)) 0)
  else none

/-- A string with no leading and no trailing whitespace. -/
def Stripped (l : List Char) : Prop :=
  (∀ c ∈ l.head?, isPySpace c = false) ∧ (∀ c ∈ l.getLast?, isPySpace c = false)

theorem dropTrailing_getLast (l : List Char) :
    ∀ c ∈ (dropTrailing l).getLast?, isPySpace c = false := by
  induction l with
  | nil => simp [dropTrailing]
  | cons c rest ih =>
    simp only [dropTrailing]
    split
    · simp
    · next h =>
      intro x hx
      rcases hr : dropTrailing rest with _ | ⟨d, r⟩
      · rw [hr] at hx
        simp only [List.getLast?_singleton, Option.mem_def, Option.some.injEq] at hx
        subst hx
        rw [hr] at h
        simpa using h
      · rw [hr] at hx
        rw [List.getLast?_cons_cons] at hx
        exact ih x (by rw [hr]; exact hx)

theorem dropTrailing_head (l : List Char) (h : dropTrailing l ≠ []) :
    (dropTrailing l).head? = l.head? := by
  cases l with
  | nil => rfl
  | cons c rest =>
    simp only [dropTrailing] at h ⊢
    split at h
    · exact absurd rfl h
    · next hcond => rw [if_neg hcond]; rfl

theorem dropTrailing_eq_self (l : List Char)
    (h : ∀ c ∈ l.getLast?, isPySpace c = false) : dropTrailing l = l := by
  induction l with
  | nil => rfl
  | cons c rest ih =>
    simp only [dropTrailing]
    cases rest with
    | nil =>
      simp only [List.getLast?_singleton, Option.mem_some_iff] at h
      simp [dropTrailing, h c rfl]
    | cons d r =>
      rw [List.getLast?_cons_cons] at h
      rw [ih h]
      simp

theorem dropTrailing_sublist (l : List Char) : List.Sublist (dropTrailing l) l := by
  induction l with
  | nil => exact List.Sublist.refl []
  | cons c rest ih =>
    simp only [dropTrailing]
    split
    · exact List.nil_sublist _
    · exact List.Sublist.cons₂ c ih

theorem dropTrailing_length (l : List Char) : (dropTrailing l).length ≤ l.length :=
  (dropTrailing_sublist l).length_le

theorem dropTrailing_append (a b : List Char) (hb : dropTrailing b ≠ []) :
    dropTrailing (a ++ b) = a ++ dropTrailing b := by
  induction a with
  | nil => rfl
  | cons c rest ih =>
    simp only [List.cons_append, dropTrailing, List.append_eq]
    rw [ih]
    have : rest ++ dropTrailing b ≠ [] := by
      simp only [ne_eq, List.append_eq_nil]
      rintro ⟨-, h⟩
      exact hb h
    simp [this]

theorem pyStrip_nil : pyStrip [] = [] := rfl

theorem stripped_pyStrip (l : List Char) : Stripped (pyStrip l) := by
  constructor
  · intro c hc
    have hne : pyStrip l ≠ [] := by
      intro h
      rw [h] at hc
      simp at hc
    rw [pyStrip, dropTrailing_head _ hne] at hc
    have := List.head?_dropWhile_not isPySpace l
    rcases hh : (l.dropWhile isPySpace).head? with _ | x
    · rw [hh] at hc; simp at hc
    · rw [hh] at hc this
      simp only [Option.mem_def, Option.some.injEq] at hc
      subst hc
      exact this
  · intro c hc
    exact dropTrailing_getLast _ c hc

theorem pyStrip_eq_self {l : List Char} (h : Stripped l) : pyStrip l = l := by
  obtain ⟨h1, h2⟩ := h
  have hd : l.dropWhile isPySpace = l := by
    cases l with
    | nil => rfl
    | cons c rest =>
      have := h1 c (by simp)
      simp [List.dropWhile_cons, this]
  rw [pyStrip, hd]
  exact dropTrailing_eq_self l h2

theorem pyStrip_idem (l : List Char) : pyStrip (pyStrip l) = pyStrip l :=
  pyStrip_eq_self (stripped_pyStrip l)

theorem pyStrip_sublist (l : List Char) : List.Sublist (pyStrip l) l :=
  (dropTrailing_sublist _).trans (List.dropWhile_sublist _)

theorem pyStrip_length (l : List Char) : (pyStrip l).length ≤ l.length :=
  (pyStrip_sublist l).length_le

theorem mem_of_mem_pyStrip {c : Char} {l : List Char} (h : c ∈ pyStrip l) : c ∈ l :=
  (pyStrip_sublist l).subset h

theorem stripped_of_all {l : List Char} (h : ∀ c ∈ l, isPySpace c = false) :
    Stripped l :=
  ⟨fun c hc => h c (List.mem_of_mem_head? hc),
   fun c hc => h c (List.mem_of_mem_getLast? hc)⟩

theorem stripped_append_mid {a b : List Char} {c : Char}
    (ha : Stripped a) (hna : a ≠ []) (hb : Stripped b) (hnb : b ≠ []) :
    Stripped (a ++ c :: b) := by
  constructor
  · rw [List.head?_append_of_ne_nil _ hna]
    exact ha.1
  · rw [List.getLast?_append_of_ne_nil _ (by simp)]
    have hb' : (c :: b).getLast? = b.getLast? := by
      cases b with
      | nil => exact absurd rfl hnb
      | cons d r => rw [List.getLast?_cons_cons]
    rw [hb']
    exact hb.2

/-! ## Fixed-shape regular-expression matchers

The anchored regexes of `validate_date_format` whose groups have fixed
widths are modelled by matching a list of per-character predicates. -/

/-- Match a string against a list of per-character predicates, one each. -/
def matchShape : List (Char → Bool) → List Char → Bool
  | [], [] => true
  | p :: ps, c :: cs => p c && matchShape ps cs
  | _, _ => false

theorem matchShape_length {ps : List (Char → Bool)} {l : List Char}
    (h : matchShape ps l = true) : l.length = ps.length := by
  induction ps generalizing l with
  | nil => cases l with
    | nil => rfl
    | cons c cs => simp [matchShape] at h
  | cons p ps ih =>
    cases l with
    | nil => simp [matchShape] at h
    | cons c cs =>
      simp only [matchShape, Bool.and_eq_true] at h
      simp [ih h.2]

theorem matchShape_forall {ps : List (Char → Bool)} {l : List Char}
    {Q : Char → Prop} (h : matchShape ps l = true)
    (hp : ∀ p ∈ ps, ∀ c, p c = true → Q c) : ∀ c ∈ l, Q c := by
  induction ps generalizing l with
  | nil =>
    cases l with
    | nil => simp
    | cons c cs => simp [matchShape] at h
  | cons p ps ih =>
    cases l with
    | nil => simp [matchShape] at h
    | cons c cs =>
      simp only [matchShape, Bool.and_eq_true] at h
      intro x hx
      rcases List.mem_cons.1 hx with rfl | hx
      · exact hp p (List.mem_cons_self _ _) x h.1
      · exact ih h.2 (fun q hq => hp q (List.mem_cons_of_mem _ hq)) x hx

theorem matchShape_append {ps qs : List (Char → Bool)} {a b : List Char}
    (ha : matchShape ps a = true) (hb : matchShape qs b = true) :
    matchShape (ps ++ qs) (a ++ b) = true := by
  induction ps generalizing a with
  | nil =>
    cases a with
    | nil => simpa using hb
    | cons c cs => simp [matchShape] at ha
  | cons p ps ih =>
    cases a with
    | nil => simp [matchShape] at ha
    | cons c cs =>
      simp only [matchShape, Bool.and_eq_true] at ha
      simp only [List.cons_append, matchShape, Bool.and_eq_true]
      exact ⟨ha.1, ih ha.2⟩

theorem matchShape_replicate {p : Char → Bool} {l : List Char} {n : Nat}
    (hl : l.length = n) (h : ∀ c ∈ l, p c = true) :
    matchShape (List.replicate n p) l = true := by
  induction l generalizing n with
  | nil => subst hl; rfl
  | cons c cs ih =>
    subst hl
    simp only [List.length_cons, List.replicate, matchShape, Bool.and_eq_true]
    exact ⟨h c (List.mem_cons_self _ _), ih rfl (fun x hx => h x (List.mem_cons_of_mem _ hx))⟩

/-- Characters that may occur in a string accepted by one of the ISO-form
regexes of `validate_date_format`. -/
def isoCharOK (c : Char) : Bool :=
  isDigitA c || c = '-' || c = ':' || c = 'T' || c = 'Z'

/-- The literal character `-`. -/
def isDash (c : Char) : Bool := c = '-'

/-- The literal character `:`. -/
def isColonC (c : Char) : Bool := c = ':'

/-- The literal character `T`. -/
def isTC (c : Char) : Bool := c = 'T'

/-- The literal character `Z`. -/
def isZC (c : Char) : Bool := c = 'Z'

/-- Shape of `^\d{4}$`. -/
def isoYShape : List (Char → Bool) := List.replicate 4 isDigitA

/-- Shape of `^\d{4}-\d{2}$`. -/
def isoYMShape : List (Char → Bool) :=
  List.replicate 4 isDigitA ++ [isDash] ++ List.replicate 2 isDigitA

/-- Shape of `^\d{4}-\d{2}-\d{2}$`. -/
def isoDateShape : List (Char → Bool) :=
  isoYMShape ++ [isDash] ++ List.replicate 2 isDigitA

/-- Shape of `^\d{4}-\d{2}-\d{2}T\d{2}:\d{2}:\d{2}Z$`. -/
def isoTimeShape : List (Char → Bool) :=
  isoDateShape ++ [isTC] ++ List.replicate 2 isDigitA ++
    [isColonC] ++ List.replicate 2 isDigitA ++ [isColonC] ++
    List.replicate 2 isDigitA ++ [isZC]

/-- `re.match` of `^\d{4}$`: a bare year. -/
def isoY (l : List Char) : Bool := matchShape isoYShape l

/-- `re.match` of `^\d{4}-\d{2}$`: ISO year-month. -/
def isoYM (l : List Char) : Bool := matchShape isoYMShape l

/-- `re.match` of `^\d{4}-\d{2}-\d{2}$`: ISO date. -/
def isoDate (l : List Char) : Bool := matchShape isoDateShape l

/-- `re.match` of the ISO date-time regex with trailing `Z`. -/
def isoTime (l : List Char) : Bool := matchShape isoTimeShape l

theorem isoShape_charOK {ps : List (Char → Bool)}
    (hps : ps = isoYShape ∨ ps = isoYMShape ∨ ps = isoDateShape ∨ ps = isoTimeShape)
    {l : List Char} (h : matchShape ps l = true) : ∀ c ∈ l, isoCharOK c = true := by
  refine matchShape_forall h ?_
  intro p hp c hc
  have hd : p = isDigitA ∨ p = isDash ∨ p = isColonC ∨ p = isTC ∨ p = isZC := by
    rcases hps with rfl | rfl | rfl | rfl <;>
      simp only [isoYShape, isoYMShape, isoDateShape, isoTimeShape, List.mem_append,
        List.mem_replicate, List.mem_singleton] at hp <;> tauto
  rcases hd with rfl | rfl | rfl | rfl | rfl <;>
    simp_all [isoCharOK, isDash, isColonC, isTC, isZC]

/-! ## Variable-width group parsers

The anchored regexes with `{1,2}`-width groups are modelled by greedy
scanning with `takeWhile`/`dropWhile`; because every group is followed by a
character outside the group's class, greedy scanning is equivalent to the
regex's backtracking semantics. -/

theorem span_exact {p : Char → Bool} {g r : List Char}
    (hg : ∀ c ∈ g, p c = true) (hr : ∀ c ∈ r.head?, p c = false) :
    (g ++ r).takeWhile p = g ∧ (g ++ r).dropWhile p = r := by
  induction g with
  | nil =>
    simp only [List.nil_append]
    cases r with
    | nil => exact ⟨rfl, rfl⟩
    | cons c rest =>
      have := hr c (by simp)
      simp [List.takeWhile_cons, List.dropWhile_cons, this]
  | cons c g ih =>
    have hc := hg c (by simp)
    have := ih (fun x hx => hg x (List.mem_cons_of_mem _ hx))
    simp [List.takeWhile_cons, List.dropWhile_cons, hc, this.1, this.2]

/-- Python `s.split('/')` has exactly two parts iff `s` contains exactly one
`'/'`; this returns those two parts.  (`validate_date_format` only uses the
parts when `len(dates) == 2`.) -/
def splitSlash2 (l : List Char) : Option (List Char × List Char) :=
  match l.dropWhile (fun c => !(c = '/')) with
  | [] => none
  | _ :: rest =>
    if rest.contains '/' then none
    else some (l.takeWhile (fun c => !(c = '/')), rest)

theorem splitSlash2_sound {l a b : List Char}
    (h : splitSlash2 l = some (a, b)) :
    l = a ++ '/' :: b ∧ a.contains '/' = false ∧ b.contains '/' = false := by
  unfold splitSlash2 at h
  rcases hd : l.dropWhile (fun c => !(c = '/')) with _ | ⟨c, rest⟩
  · rw [hd] at h; exact absurd h (by simp)
  · rw [hd] at h
    dsimp only at h
    by_cases hc : rest.contains '/'
    · rw [if_pos hc] at h; exact absurd h (by simp)
    · rw [if_neg hc] at h
      simp only [Option.some.injEq, Prod.mk.injEq] at h
      obtain ⟨rfl, rfl⟩ := h
      have hc' : c = '/' := by
        have := List.head?_dropWhile_not (fun c => !(c = '/')) l
        rw [hd] at this
        simpa using this
      subst hc'
      refine ⟨?_, ?_, by simpa using hc⟩
      · conv_lhs => rw [← List.takeWhile_append_dropWhile (fun c => !(c = '/')) l]
        rw [hd]
      · simp only [List.contains_eq_any_beq, List.any_eq_false]
        intro x hx
        have := List.mem_takeWhile_imp (p := fun c => !(c = '/')) hx
        simp only [Bool.not_eq_true', decide_eq_false_iff_not] at this
        simpa using fun hh => this hh.symm

theorem splitSlash2_complete {a b : List Char}
    (ha : a.contains '/' = false) (hb : b.contains '/' = false) :
    splitSlash2 (a ++ '/' :: b) = some (a, b) := by
  have ha' : ∀ c ∈ a, (fun c => !(c = '/')) c = true := by
    intro c hc
    simp only [List.contains_eq_any_beq, List.any_eq_false] at ha
    have := ha c hc
    simp only [beq_iff_eq] at this
    simpa using fun hh => this hh.symm
  have hspan := span_exact (r := '/' :: b) ha' (by simp)
  unfold splitSlash2
  rw [hspan.2, hspan.1]
  dsimp only
  rw [if_neg (by rw [hb]; simp)]

theorem contains_of_append_mid {a b : List Char} : (a ++ '/' :: b).contains '/' = true := by
  simp [List.contains_eq_any_beq]

/-- `re.match` of `^(\d{1,2})/(\d{1,2})/(\d{4})$` returning the three groups. -/
def ddSlashParse (l : List Char) : Option (List Char × List Char × List Char) :=
  let d1 := l.takeWhile isDigitA
  let r1 := l.dropWhile isDigitA
  if d1.length < 1 ∨ 2 < d1.length then none else
    match r1 with
    | '/' :: r2 =>
      let d2 := r2.takeWhile isDigitA
      let r3 := r2.dropWhile isDigitA
      if d2.length < 1 ∨ 2 < d2.length then none else
        match r3 with
        | '/' :: r4 =>
          let y := r4.takeWhile isDigitA
          let r5 := r4.dropWhile isDigitA
          if y.length = 4 ∧ r5 = [] then some (d1, d2, y) else none
        | _ => none
    | _ => none

theorem ddSlashParse_sound {l d1 d2 y : List Char}
    (h : ddSlashParse l = some (d1, d2, y)) :
    l = d1 ++ '/' :: (d2 ++ '/' :: y) ∧
    (∀ c ∈ d1, isDigitA c = true) ∧ 1 ≤ d1.length ∧ d1.length ≤ 2 ∧
    (∀ c ∈ d2, isDigitA c = true) ∧ 1 ≤ d2.length ∧ d2.length ≤ 2 ∧
    (∀ c ∈ y, isDigitA c = true) ∧ y.length = 4 := by
  unfold ddSlashParse at h
  simp only at h
  split at h
  · exact absurd h (by simp)
  · next hlen1 =>
    push_neg at hlen1
    split at h
    · next r2 heq1 =>
      split at h
      · exact absurd h (by simp)
      · next hlen2 =>
        push_neg at hlen2
        split at h
        · next r4 heq2 =>
          split at h
          · next hy =>
            simp only [Option.some.injEq, Prod.mk.injEq] at h
            obtain ⟨rfl, rfl, rfl⟩ := h
            have hl : l = l.takeWhile isDigitA ++ ('/' :: r2) := by
              conv_lhs => rw [← List.takeWhile_append_dropWhile isDigitA l]
              rw [heq1]
            have hr2 : r2 = r2.takeWhile isDigitA ++ ('/' :: r4) := by
              conv_lhs => rw [← List.takeWhile_append_dropWhile isDigitA r2]
              rw [heq2]
            have hr4 : r4 = r4.takeWhile isDigitA := by
              conv_lhs => rw [← List.takeWhile_append_dropWhile isDigitA r4]
              rw [hy.2, List.append_nil]
            refine ⟨?_, fun c hc => List.mem_takeWhile_imp hc, hlen1.1, hlen1.2,
              fun c hc => List.mem_takeWhile_imp hc, hlen2.1, hlen2.2,
              fun c hc => List.mem_takeWhile_imp hc, hy.1⟩
            rw [hr4] at hr2
            rw [hr2] at hl
            exact hl
          · exact absurd h (by simp)
        · exact absurd h (by simp)
    · exact absurd h (by simp)

theorem ddSlashParse_complete {d1 d2 y : List Char}
    (h1 : ∀ c ∈ d1, isDigitA c = true) (h1a : 1 ≤ d1.length) (h1b : d1.length ≤ 2)
    (h2 : ∀ c ∈ d2, isDigitA c = true) (h2a : 1 ≤ d2.length) (h2b : d2.length ≤ 2)
    (hy : ∀ c ∈ y, isDigitA c = true) (hyl : y.length = 4) :
    ddSlashParse (d1 ++ '/' :: (d2 ++ '/' :: y)) = some (d1, d2, y) := by
  have hs1 := span_exact (r := '/' :: (d2 ++ '/' :: y)) h1 (by simp [isDigitA])
  have hs2 := span_exact (r := '/' :: y) h2 (by simp [isDigitA])
  have hs3 := span_exact (r := ([] : List Char)) hy (by simp)
  rw [List.append_nil] at hs3
  unfold ddSlashParse
  simp only [hs1.1, hs1.2, hs2.1, hs2.2, hs3.1, hs3.2]
  rw [if_neg (by omega), if_neg (by omega), if_pos ⟨hyl, trivial⟩]

/-- The `re` separator class (dash, slash or whitespace) in `DD-Mmm-YYYY`. -/
def isSep3 (c : Char) : Bool := c = '-' || c = '/' || isPySpace c

/-- The `re` separator class (dash or slash) in `YYYY/MM/DD`. -/
def isSep2 (c : Char) : Bool := c = '-' || c = '/'

/-- `re.match` of the `DD-Mmm-YYYY` regex (day 1-2 digits, 3-letter month,
4-digit year, separators dash, slash or whitespace), returning the groups. -/
def ddMmmParse (l : List Char) : Option (List Char × List Char × List Char) :=
  let d := l.takeWhile isDigitA
  let r1 := l.dropWhile isDigitA
  if d.length < 1 ∨ 2 < d.length then none else
    match r1 with
    | s1 :: r2 =>
      if isSep3 s1 then
        let m := r2.takeWhile isAlphaA
        let r3 := r2.dropWhile isAlphaA
        if m.length = 3 then
          match r3 with
          | s2 :: r4 =>
            if isSep3 s2 then
              let y := r4.takeWhile isDigitA
              let r5 := r4.dropWhile isDigitA
              if y.length = 4 ∧ r5 = [] then some (d, m, y) else none
            else none
          | [] => none
        else none
      else none
    | [] => none

/-- `re.match` of the `Mmm-YYYY` regex (3-letter month, separator, 4-digit
year), returning the month-abbreviation and year groups. -/
def mmmYParse (l : List Char) : Option (List Char × List Char) :=
  let m := l.takeWhile isAlphaA
  let r1 := l.dropWhile isAlphaA
  if m.length = 3 then
    match r1 with
    | s1 :: r2 =>
      if isSep3 s1 then
        let y := r2.takeWhile isDigitA
        let r3 := r2.dropWhile isDigitA
        if y.length = 4 ∧ r3 = [] then some (m, y) else none
      else none
    | [] => none
  else none

/-- `re.match` of the `YYYY/MM/DD` regex (4-digit year, 1-2 digit month and
day, separators dash or slash), returning the year, month and day groups. -/
def ymdParse (l : List Char) : Option (List Char × List Char × List Char) :=
  let y := l.takeWhile isDigitA
  let r1 := l.dropWhile isDigitA
  if y.length = 4 then
    match r1 with
    | s1 :: r2 =>
      if isSep2 s1 then
        let m := r2.takeWhile isDigitA
        let r3 := r2.dropWhile isDigitA
        if m.length < 1 ∨ 2 < m.length then none else
          match r3 with
          | s2 :: r4 =>
            if isSep2 s2 then
              let d := r4.takeWhile isDigitA
              let r5 := r4.dropWhile isDigitA
              if 1 ≤ d.length ∧ d.length ≤ 2 ∧ r5 = [] then some (y, m, d) else none
            else none
          | [] => none
      else none
    | [] => none
  else none

theorem ddMmmParse_groups {l d m y : List Char}
    (h : ddMmmParse l = some (d, m, y)) :
    (∀ c ∈ d, isDigitA c = true) ∧ 1 ≤ d.length ∧ d.length ≤ 2 ∧
    (∀ c ∈ m, isAlphaA c = true) ∧ m.length = 3 ∧
    (∀ c ∈ y, isDigitA c = true) ∧ y.length = 4 := by
  unfold ddMmmParse at h
  simp only at h
  split at h
  · exact absurd h (by simp)
  · next hlen1 =>
    push_neg at hlen1
    split at h
    · next s1 r2 heq1 =>
      split at h
      · split at h
        · next hm =>
          split at h
          · next s2 r4 heq2 =>
            split at h
            · split at h
              · next hy =>
                simp only [Option.some.injEq, Prod.mk.injEq] at h
                obtain ⟨rfl, rfl, rfl⟩ := h
                exact ⟨fun c hc => List.mem_takeWhile_imp hc, hlen1.1, hlen1.2,
                  fun c hc => List.mem_takeWhile_imp hc, hm,
                  fun c hc => List.mem_takeWhile_imp hc, hy.1⟩
              · exact absurd h (by simp)
            · exact absurd h (by simp)
          · exact absurd h (by simp)
        · exact absurd h (by simp)
      · exact absurd h (by simp)
    · exact absurd h (by simp)

theorem mmmYParse_groups {l m y : List Char}
    (h : mmmYParse l = some (m, y)) :
    (∀ c ∈ m, isAlphaA c = true) ∧ m.length = 3 ∧
    (∀ c ∈ y, isDigitA c = true) ∧ y.length = 4 := by
  unfold mmmYParse at h
  simp only at h
  split at h
  · next hm =>
    split at h
    · next s1 r2 heq1 =>
      split at h
      · split at h
        · next hy =>
          simp only [Option.some.injEq, Prod.mk.injEq] at h
          obtain ⟨rfl, rfl⟩ := h
          exact ⟨fun c hc => List.mem_takeWhile_imp hc, hm,
            fun c hc => List.mem_takeWhile_imp hc, hy.1⟩
        · exact absurd h (by simp)
      · exact absurd h (by simp)
    · exact absurd h (by simp)
  · exact absurd h (by simp)

theorem ymdParse_groups {l y m d : List Char}
    (h : ymdParse l = some (y, m, d)) :
    (∀ c ∈ y, isDigitA c = true) ∧ y.length = 4 ∧
    (∀ c ∈ m, isDigitA c = true) ∧ 1 ≤ m.length ∧ m.length ≤ 2 ∧
    (∀ c ∈ d, isDigitA c = true) ∧ 1 ≤ d.length ∧ d.length ≤ 2 := by
  unfold ymdParse at h
  simp only at h
  split at h
  · next hylen =>
    split at h
    · next s1 r2 heq1 =>
      split at h
      · split at h
        · exact absurd h (by simp)
        · next hmlen =>
          push_neg at hmlen
          split at h
          · next s2 r4 heq2 =>
            split at h
            · split at h
              · next hd =>
                simp only [Option.some.injEq, Prod.mk.injEq] at h
                obtain ⟨rfl, rfl, rfl⟩ := h
                exact ⟨fun c hc => List.mem_takeWhile_imp hc, hylen,
                  fun c hc => List.mem_takeWhile_imp hc, hmlen.1, hmlen.2,
                  fun c hc => List.mem_takeWhile_imp hc, hd.1, hd.2.1⟩
              · exact absurd h (by simp)
            · exact absurd h (by simp)
          · exact absurd h (by simp)
      · exact absurd h (by simp)
    · exact absurd h (by simp)
  · exact absurd h (by simp)

/-- Python `str.capitalize()` for the month group: first character
upper-cased, the rest lower-cased. -/
def upperC (c : Char) : Char :=
  if 'a' ≤ c && c ≤ 'z' then Char.ofNat (c.toNat - 32) else c

/-- `month.capitalize()`. -/
def capitalize (l : List Char) : List Char :=
  match l with
  | [] => []
  | c :: rest => upperC c :: lowerL rest

/-- The `month_dict` of `validate_date_format`. -/
def monthDict : List (List Char × List Char) :=
  [(['J','a','n'], ['0','1']), (['F','e','b'], ['0','2']),
   (['M','a','r'], ['0','3']), (['A','p','r'], ['0','4']),
   (['M','a','y'], ['0','5']), (['J','u','n'], ['0','6']),
   (['J','u','l'], ['0','7']), (['A','u','g'], ['0','8']),
   (['S','e','p'], ['0','9']), (['O','c','t'], ['1','0']),
   (['N','o','v'], ['1','1']), (['D','e','c'], ['1','2'])]

/-- `month_dict[month_abbr]` when `month_abbr in month_dict`, else `none`. -/
def monthLookup (m : List Char) : Option (List Char) :=
  (monthDict.find? (fun p => p.1 = m)).map (·.2)

theorem monthLookup_digits {m v : List Char} (h : monthLookup m = some v) :
    v.length = 2 ∧ ∀ c ∈ v, isDigitA c = true := by
  unfold monthLookup at h
  rcases hf : monthDict.find? (fun p => p.1 = m) with _ | p
  · rw [hf] at h; exact absurd h (by simp)
  · rw [hf] at h
    simp only [Option.map_some', Option.some.injEq] at h
    subst h
    have hp := List.mem_of_find?_eq_some hf
    fin_cases hp <;> exact ⟨rfl, by decide⟩

/-! ## The date normalizer `validate_date_format`

The repository contains near-duplicate copies of this function.  They share
the whole recognition cascade and differ in three data points, collected in
`DateCfg`: the result for blank input (`""` in `sra_validate.py` and
`test_date_validation.py`, `"not collected"` in `fix_dates.py`), whether the
exact-equality sentinel pre-check (line 159 of `sra_validate.py`) is
present, and the result for unrecognized input (the input itself in
`sra_validate.py`, `"not collected"` in `fix_dates.py`). -/

/-- `"not collected"`. -/
def notCollected : List Char := ['n','o','t',' ','c','o','l','l','e','c','t','e','d']

/-- `"not provided"`. -/
def notProvided : List Char := ['n','o','t',' ','p','r','o','v','i','d','e','d']

/-- `"unknown"`. -/
def unknownStr : List Char := ['u','n','k','n','o','w','n']

/-- The three data points distinguishing the repository's copies of
`validate_date_format`. -/
structure DateCfg where
  blankResult : List Char
  exactPre : Bool
  fallbackNotCollected : Bool

/-- The `MM/DD/YYYY` / `DD/MM/YYYY` disambiguation block: assume
month/day/year unless the first number exceeds 12; clamp an out-of-range
month or day to `"01"`; zero-pad; the `except ValueError` handler yields
`{year}-01-01`. -/
def mdyResult (d1 d2 y : List Char) : List Char :=
  match digitsToNat? d1, digitsToNat? d2 with
  | some a, some b =>
    let ms := if a > 12 then d2 else d1
    let ds := if a > 12 then d1 else d2
    let mi := if a > 12 then b else a
    let di := if a > 12 then a else b
    let ms' := if mi < 1 ∨ 12 < mi then ['0', '1'] else ms
    let ds' := if di < 1 ∨ 31 < di then ['0', '1'] else ds
    y ++ '-' :: zfill2 ms' ++ '-' :: zfill2 ds'
  | _, _ => y ++ ['-', '0', '1', '-', '0', '1']

/-- The `YYYY/MM/DD` branch and the final fallback of
`validate_date_format`. -/
def vdfTail3 (cfg : DateCfg) (s : List Char) : List Char :=
  match ymdParse s with
  | some (y, m, d) => y ++ '-' :: zfill2 m ++ '-' :: zfill2 d
  | none => if cfg.fallbackNotCollected then notCollected else s

/-- The `Mmm-YYYY` branch of `validate_date_format` (falls through when the
three letters are not a known month abbreviation). -/
def vdfTail2 (cfg : DateCfg) (s : List Char) : List Char :=
  match mmmYParse s with
  | some (m, y) =>
    match monthLookup (capitalize m) with
    | some mm => y ++ '-' :: mm
    | none => vdfTail3 cfg s
  | none => vdfTail3 cfg s

/-- The `DD-Mmm-YYYY` branch of `validate_date_format` (falls through when
the three letters are not a known month abbreviation). -/
def vdfTail (cfg : DateCfg) (s : List Char) : List Char :=
  match ddMmmParse s with
  | some (d, m, y) =>
    match monthLookup (capitalize m) with
    | some mm => y ++ '-' :: mm ++ '-' :: zfill2 d
    | none => vdfTail2 cfg s
  | none => vdfTail2 cfg s

/-- The date-range branch: when the string contains `'/'`, is not itself a
`D/D/YYYY` date, splits into exactly two parts, and both parts recursively
normalize to something non-empty, the results are rejoined with `'/'`;
otherwise control falls through. -/
def rangedOpt (rec : List Char → List Char) (s : List Char) : Option (List Char) :=
  if s.contains '/' ∧ ddSlashParse s = none then
    match splitSlash2 s with
    | some (a, b) =>
      if rec a ≠ [] ∧ rec b ≠ [] then some (rec a ++ '/' :: rec b) else none
    | none => none
  else none

/-- The recognition cascade of `validate_date_format` on the stripped,
non-blank, non-sentinel string. -/
def vdfCore (cfg : DateCfg) (rec : List Char → List Char) (s : List Char) : List Char :=
  if isoTime s then s
  else if isoDate s then s
  else if isoYM s then s
  else if isoY s then s
  else
    match rangedOpt rec s with
    | some r => r
    | none =>
      match ddSlashParse s with
      | some (d1, d2, y) => mdyResult d1 d2 y
      | none => vdfTail cfg s

/-- One unfolding of `validate_date_format`, with the recursive occurrence
abstracted as `rec`. -/
def vdfBody (cfg : DateCfg) (rec : List Char → List Char) (l : List Char) : List Char :=
  if pyStrip l = [] then cfg.blankResult
  else if cfg.exactPre ∧ (l = notCollected ∨ l = notProvided ∨ l = unknownStr) then l
  else if lowerL (pyStrip l) = notCollected ∨ lowerL (pyStrip l) = notProvided ∨
      lowerL (pyStrip l) = unknownStr then pyStrip l
  else vdfCore cfg rec (pyStrip l)

/-- Fuel-indexed recursion; `l.length` bounds the recursion depth because
the range branch recurses on strict sub-strings. -/
def vdfF (cfg : DateCfg) : Nat → List Char → List Char
  | 0, _ => []
  | fuel + 1, l => vdfBody cfg (vdfF cfg fuel) l

/-- `sra_validate.py` (and `test_date_validation.py`): blank input yields
`""`, the exact sentinel pre-check is present, unrecognized input is
returned as-is. -/
def sraValidateCfg : DateCfg :=
  { blankResult := [], exactPre := true, fallbackNotCollected := false }

/-- `fix_dates.py`: blank input yields `"not collected"`, no exact
pre-check, unrecognized input yields `"not collected"`. -/
def fixDatesCfg : DateCfg :=
  { blankResult := notCollected, exactPre := false, fallbackNotCollected := true }

theorem splitSlash2_length {l a b : List Char} (h : splitSlash2 l = some (a, b)) :
    a.length < l.length ∧ b.length < l.length := by
  have hl := (splitSlash2_sound h).1
  rw [hl]
  simp only [List.length_append, List.length_cons]
  omega

theorem rangedOpt_congr {rec1 rec2 : List Char → List Char} {s : List Char}
    (h : ∀ a b, splitSlash2 s = some (a, b) → rec1 a = rec2 a ∧ rec1 b = rec2 b) :
    rangedOpt rec1 s = rangedOpt rec2 s := by
  unfold rangedOpt
  by_cases hc : s.contains '/' ∧ ddSlashParse s = none
  · rw [if_pos hc, if_pos hc]
    rcases hs : splitSlash2 s with _ | ⟨a, b⟩
    · rfl
    · have := h a b hs
      dsimp only
      rw [this.1, this.2]
  · rw [if_neg hc, if_neg hc]

theorem vdfBody_congr {cfg : DateCfg} {rec1 rec2 : List Char → List Char} {l : List Char}
    (h : ∀ a b, splitSlash2 (pyStrip l) = some (a, b) →
      rec1 a = rec2 a ∧ rec1 b = rec2 b) :
    vdfBody cfg rec1 l = vdfBody cfg rec2 l := by
  unfold vdfBody vdfCore
  rw [rangedOpt_congr h]

theorem vdfF_canon (cfg : DateCfg) :
    ∀ f : Nat, ∀ {l : List Char}, l.length < f →
      vdfF cfg f l = vdfF cfg (l.length + 1) l := by
  intro f
  induction f using Nat.strong_induction_on with
  | _ f ih =>
    intro l hl
    match f, hl with
    | fuel + 1, hl =>
      show vdfBody cfg (vdfF cfg fuel) l = vdfBody cfg (vdfF cfg l.length) l
      apply vdfBody_congr
      intro a b hab
      have hlen := splitSlash2_length hab
      have hsl := pyStrip_length l
      constructor
      · rw [ih fuel (Nat.lt_succ_self _) (by omega),
          ih l.length (by omega) (by omega)]
      · rw [ih fuel (Nat.lt_succ_self _) (by omega),
          ih l.length (by omega) (by omega)]

theorem vdfF_run_eq (cfg : DateCfg) (l : List Char) :
    vdfF cfg (l.length + 1) l =
      vdfBody cfg (fun x => vdfF cfg (x.length + 1) x) l := by
  show vdfBody cfg (vdfF cfg l.length) l = _
  apply vdfBody_congr
  intro a b hab
  have hlen := splitSlash2_length hab
  have hsl := pyStrip_length l
  exact ⟨vdfF_canon cfg l.length (by omega), vdfF_canon cfg l.length (by omega)⟩

/-- The date normalizer with configuration `cfg`; the fuel `l.length + 1`
always suffices. -/
def vdfRun (cfg : DateCfg) (l : List Char) : List Char :=
  vdfF cfg (l.length + 1) l

theorem vdfRun_eq (cfg : DateCfg) (l : List Char) :
    vdfRun cfg l = vdfBody cfg (vdfRun cfg) l :=
  vdfF_run_eq cfg l

namespace SraValidate

/-- `validate_date_format` of `src/sra_metagenome_submission/sra_validate.py`
(lines 139-285). -/
def validate_date_format (l : List Char) : List Char :=
  vdfRun sraValidateCfg l

end SraValidate

namespace FixDates

/-- `validate_date_format` of `fix_dates.py` (lines 11-146). -/
def validate_date_format (l : List Char) : List Char :=
  vdfRun fixDatesCfg l

end FixDates

/-! ## Character-class arithmetic -/

theorem char_eq_iff_toNat {a b : Char} : a = b ↔ a.toNat = b.toNat :=
  ⟨fun h => by rw [h], fun h => Char.ext (UInt32.toNat.inj h)⟩

theorem char_le_iff_toNat {a b : Char} : a ≤ b ↔ a.toNat ≤ b.toNat :=
  ⟨fun h => h, fun h => h⟩

theorem toNat_ofNat_valid {n : Nat} (h : n.isValidChar) : (Char.ofNat n).toNat = n := by
  unfold Char.ofNat
  rw [dif_pos h]
  rfl

theorem isDigitA_iff {c : Char} : isDigitA c = true ↔ 48 ≤ c.toNat ∧ c.toNat ≤ 57 := by
  unfold isDigitA
  simp only [Bool.and_eq_true, decide_eq_true_eq]
  exact and_congr char_le_iff_toNat char_le_iff_toNat

theorem isAlphaA_iff {c : Char} :
    isAlphaA c = true ↔ (65 ≤ c.toNat ∧ c.toNat ≤ 90) ∨ (97 ≤ c.toNat ∧ c.toNat ≤ 122) := by
  unfold isAlphaA
  simp only [Bool.or_eq_true, Bool.and_eq_true, decide_eq_true_eq]
  exact or_congr (and_congr char_le_iff_toNat char_le_iff_toNat)
    (and_congr char_le_iff_toNat char_le_iff_toNat)

theorem isPySpace_iff {c : Char} :
    isPySpace c = true ↔ c.toNat = 32 ∨ c.toNat = 9 ∨ c.toNat = 10 ∨
      c.toNat = 13 ∨ c.toNat = 11 ∨ c.toNat = 12 := by
  unfold isPySpace
  simp only [Bool.or_eq_true, decide_eq_true_eq, char_eq_iff_toNat,
    show (' ' : Char).toNat = 32 from rfl, show ('\t' : Char).toNat = 9 from rfl,
    show ('\n' : Char).toNat = 10 from rfl, show ('\x0d' : Char).toNat = 13 from rfl,
    show ('\x0b' : Char).toNat = 11 from rfl, show ('\x0c' : Char).toNat = 12 from rfl]
  tauto

theorem isoCharOK_iff {c : Char} :
    isoCharOK c = true ↔ (48 ≤ c.toNat ∧ c.toNat ≤ 57) ∨ c.toNat = 45 ∨
      c.toNat = 58 ∨ c.toNat = 84 ∨ c.toNat = 90 := by
  unfold isoCharOK
  simp only [Bool.or_eq_true, decide_eq_true_eq, isDigitA_iff, char_eq_iff_toNat,
    show ('-' : Char).toNat = 45 from rfl, show (':' : Char).toNat = 58 from rfl,
    show ('T' : Char).toNat = 84 from rfl, show ('Z' : Char).toNat = 90 from rfl]
  tauto

theorem lowerC_toNat (c : Char) :
    (lowerC c).toNat = if 65 ≤ c.toNat ∧ c.toNat ≤ 90 then c.toNat + 32 else c.toNat := by
  unfold lowerC
  by_cases h : 65 ≤ c.toNat ∧ c.toNat ≤ 90
  · rw [if_pos h]
    have hb : ('A' ≤ c && c ≤ 'Z') = true := by
      simp only [Bool.and_eq_true, decide_eq_true_eq]
      exact ⟨char_le_iff_toNat.2 h.1, char_le_iff_toNat.2 h.2⟩
    rw [if_pos hb]
    exact toNat_ofNat_valid (Or.inl (by omega))
  · rw [if_neg h]
    have hb : ('A' ≤ c && c ≤ 'Z') = false := by
      rcases hh : ('A' ≤ c && c ≤ 'Z') with _ | _
      · rfl
      · simp only [Bool.and_eq_true, decide_eq_true_eq] at hh
        exact absurd ⟨char_le_iff_toNat.1 hh.1, char_le_iff_toNat.1 hh.2⟩ h
    rw [hb]
    simp

theorem isDigitA_not_space {c : Char} (h : isDigitA c = true) : isPySpace c = false := by
  rcases hs : isPySpace c with _ | _
  · rfl
  · have h1 := isDigitA_iff.1 h
    have h2 := isPySpace_iff.1 hs
    omega

theorem isoCharOK_not_space {c : Char} (h : isoCharOK c = true) : isPySpace c = false := by
  rcases hs : isPySpace c with _ | _
  · rfl
  · have h1 := isoCharOK_iff.1 h
    have h2 := isPySpace_iff.1 hs
    omega

theorem isAlphaA_not_space {c : Char} (h : isAlphaA c = true) : isPySpace c = false := by
  rcases hs : isPySpace c with _ | _
  · rfl
  · have h1 := isAlphaA_iff.1 h
    have h2 := isPySpace_iff.1 hs
    omega

theorem isoCharOK_lower_ne_n {c : Char} (h : isoCharOK c = true) : lowerC c ≠ 'n' := by
  intro he
  have h1 := isoCharOK_iff.1 h
  have h2 := char_eq_iff_toNat.1 he
  rw [lowerC_toNat] at h2
  have hn : ('n' : Char).toNat = 110 := rfl
  rw [hn] at h2
  split at h2 <;> omega

theorem isoCharOK_lower_ne_u {c : Char} (h : isoCharOK c = true) : lowerC c ≠ 'u' := by
  intro he
  have h1 := isoCharOK_iff.1 h
  have h2 := char_eq_iff_toNat.1 he
  rw [lowerC_toNat] at h2
  have hn : ('u' : Char).toNat = 117 := rfl
  rw [hn] at h2
  split at h2 <;> omega

theorem isDigitA_ne_slash {c : Char} (h : isDigitA c = true) : ¬(c = '/') := by
  intro he
  have h1 := isDigitA_iff.1 h
  have h2 := char_eq_iff_toNat.1 he
  have hn : ('/' : Char).toNat = 47 := rfl
  omega

theorem isAlphaA_ne_slash {c : Char} (h : isAlphaA c = true) : ¬(c = '/') := by
  intro he
  have h1 := isAlphaA_iff.1 h
  have h2 := char_eq_iff_toNat.1 he
  have hn : ('/' : Char).toNat = 47 := rfl
  omega

theorem isDigitA_lowerC {c : Char} (h : isDigitA c = true) : lowerC c = c := by
  have h1 := isDigitA_iff.1 h
  apply char_eq_iff_toNat.2
  rw [lowerC_toNat]
  split <;> omega

/-! ## Branch lemmas for `validate_date_format` -/

/-- The case-insensitive sentinel test of `validate_date_format`. -/
def SentinelCI (s : List Char) : Prop :=
  lowerL s = notCollected ∨ lowerL s = notProvided ∨ lowerL s = unknownStr

/-- One of the four already-canonical ISO forms matches. -/
def IsoAny (s : List Char) : Prop :=
  isoTime s = true ∨ isoDate s = true ∨ isoYM s = true ∨ isoY s = true

theorem vdfRun_blank {cfg : DateCfg} {l : List Char} (h : pyStrip l = []) :
    vdfRun cfg l = cfg.blankResult := by
  rw [vdfRun_eq]
  unfold vdfBody
  rw [if_pos h]

theorem vdfRun_exact {cfg : DateCfg} {l : List Char} (h1 : pyStrip l ≠ [])
    (h2 : cfg.exactPre = true ∧ (l = notCollected ∨ l = notProvided ∨ l = unknownStr)) :
    vdfRun cfg l = l := by
  rw [vdfRun_eq]
  unfold vdfBody
  rw [if_neg h1, if_pos h2]

theorem vdfRun_ci {cfg : DateCfg} {l : List Char} (h1 : pyStrip l ≠ [])
    (h2 : ¬(cfg.exactPre = true ∧ (l = notCollected ∨ l = notProvided ∨ l = unknownStr)))
    (h3 : SentinelCI (pyStrip l)) :
    vdfRun cfg l = pyStrip l := by
  rw [vdfRun_eq]
  unfold vdfBody
  unfold SentinelCI at h3
  rw [if_neg h1, if_neg h2, if_pos h3]

theorem vdfRun_core {cfg : DateCfg} {l : List Char} (h1 : pyStrip l ≠ [])
    (h2 : ¬(cfg.exactPre = true ∧ (l = notCollected ∨ l = notProvided ∨ l = unknownStr)))
    (h3 : ¬SentinelCI (pyStrip l)) :
    vdfRun cfg l = vdfCore cfg (vdfRun cfg) (pyStrip l) := by
  rw [vdfRun_eq]
  unfold vdfBody
  unfold SentinelCI at h3
  rw [if_neg h1, if_neg h2, if_neg h3]

theorem sentinelCI_nonempty {s : List Char} (h : SentinelCI s) : s ≠ [] := by
  rintro rfl
  rcases h with h | h | h <;> exact absurd h (by decide)

theorem vdfRun_sentinel_fixed {cfg : DateCfg} {s : List Char}
    (hst : Stripped s) (h : SentinelCI s) : vdfRun cfg s = s := by
  have hps : pyStrip s = s := pyStrip_eq_self hst
  have hne : pyStrip s ≠ [] := by rw [hps]; exact sentinelCI_nonempty h
  by_cases he : cfg.exactPre = true ∧ (s = notCollected ∨ s = notProvided ∨ s = unknownStr)
  · exact vdfRun_exact hne he
  · rw [vdfRun_ci hne he (by rw [hps]; exact h), hps]

theorem stripped_notCollected : Stripped notCollected :=
  ⟨by decide, by decide⟩

theorem vdfRun_notCollected (cfg : DateCfg) : vdfRun cfg notCollected = notCollected :=
  vdfRun_sentinel_fixed stripped_notCollected (Or.inl (by decide))

theorem isoAny_charOK {s : List Char} (h : IsoAny s) : ∀ c ∈ s, isoCharOK c = true := by
  rcases h with h | h | h | h
  · exact isoShape_charOK (Or.inr (Or.inr (Or.inr rfl))) h
  · exact isoShape_charOK (Or.inr (Or.inr (Or.inl rfl))) h
  · exact isoShape_charOK (Or.inr (Or.inl rfl)) h
  · exact isoShape_charOK (Or.inl rfl) h

theorem isoAny_ne_nil {s : List Char} (h : IsoAny s) : s ≠ [] := by
  rintro rfl
  rcases h with h | h | h | h <;> exact absurd h (by decide)

theorem isoAny_not_sentinelCI {s : List Char} (h : IsoAny s) : ¬SentinelCI s := by
  intro hci
  have hne := isoAny_ne_nil h
  rcases hs : s with _ | ⟨c0, r⟩
  · exact hne hs
  · have hc0 : c0 ∈ s := by rw [hs]; simp
    have hok := isoAny_charOK h c0 hc0
    rcases hci with hl | hl | hl
    · rw [hs] at hl
      have : lowerC c0 = 'n' := by
        have := congrArg List.head? hl
        simpa [lowerL, notCollected] using this
      exact isoCharOK_lower_ne_n hok this
    · rw [hs] at hl
      have : lowerC c0 = 'n' := by
        have := congrArg List.head? hl
        simpa [lowerL, notProvided] using this
      exact isoCharOK_lower_ne_n hok this
    · rw [hs] at hl
      have : lowerC c0 = 'u' := by
        have := congrArg List.head? hl
        simpa [lowerL, unknownStr] using this
      exact isoCharOK_lower_ne_u hok this

theorem isoAny_ne_sentinels {s : List Char} (h : IsoAny s) :
    s ≠ notCollected ∧ s ≠ notProvided ∧ s ≠ unknownStr := by
  refine ⟨?_, ?_, ?_⟩ <;> rintro rfl <;>
    exact absurd (isoAny_charOK h 'n' (by decide)) (by decide)

theorem vdfCore_iso {cfg : DateCfg} {rec : List Char → List Char} {s : List Char}
    (h : IsoAny s) : vdfCore cfg rec s = s := by
  unfold vdfCore
  by_cases h1 : isoTime s = true
  · rw [if_pos h1]
  · rw [if_neg h1]
    by_cases h2 : isoDate s = true
    · rw [if_pos h2]
    · rw [if_neg h2]
      by_cases h3 : isoYM s = true
      · rw [if_pos h3]
      · rw [if_neg h3]
        by_cases h4 : isoY s = true
        · rw [if_pos h4]
        · rcases h with h | h | h | h <;> first
            | exact absurd h h1 | exact absurd h h2
            | exact absurd h h3 | exact absurd h h4

theorem vdfRun_iso_fixed {cfg : DateCfg} {s : List Char} (h : IsoAny s) :
    vdfRun cfg s = s := by
  have hchar := isoAny_charOK h
  have hst : Stripped s := stripped_of_all (fun c hc => isoCharOK_not_space (hchar c hc))
  have hps : pyStrip s = s := pyStrip_eq_self hst
  have hne : pyStrip s ≠ [] := by rw [hps]; exact isoAny_ne_nil h
  have hsent := isoAny_ne_sentinels h
  have h2 : ¬(cfg.exactPre = true ∧
      (s = notCollected ∨ s = notProvided ∨ s = unknownStr)) := by
    rintro ⟨-, hx | hx | hx⟩
    · exact hsent.1 hx
    · exact hsent.2.1 hx
    · exact hsent.2.2 hx
  have h3 : ¬SentinelCI (pyStrip s) := by rw [hps]; exact isoAny_not_sentinelCI h
  rw [vdfRun_core hne h2 h3, hps, vdfCore_iso h]

/-! ## The outputs of the conversion branches are canonical ISO strings -/

theorem isoYM_build {y m : List Char}
    (hy4 : y.length = 4) (hyd : ∀ c ∈ y, isDigitA c = true)
    (hm2 : m.length = 2) (hmd : ∀ c ∈ m, isDigitA c = true) :
    isoYM (y ++ '-' :: m) = true := by
  unfold isoYM isoYMShape
  have h1 := matchShape_replicate hy4 hyd
  have h2 : matchShape [isDash] ['-'] = true := by decide
  have h3 := matchShape_replicate hm2 hmd
  have := matchShape_append (matchShape_append h1 h2) h3
  simpa [List.append_assoc] using this

theorem isoDate_build {y m d : List Char}
    (hy4 : y.length = 4) (hyd : ∀ c ∈ y, isDigitA c = true)
    (hm2 : m.length = 2) (hmd : ∀ c ∈ m, isDigitA c = true)
    (hd2 : d.length = 2) (hdd : ∀ c ∈ d, isDigitA c = true) :
    isoDate (y ++ '-' :: m ++ '-' :: d) = true := by
  unfold isoDate isoDateShape
  have h1 : matchShape isoYMShape (y ++ '-' :: m) = true := isoYM_build hy4 hyd hm2 hmd
  have h2 : matchShape [isDash] ['-'] = true := by decide
  have h3 := matchShape_replicate hd2 hdd
  have := matchShape_append (matchShape_append h1 h2) h3
  simpa [List.append_assoc] using this

theorem zfill2_digits {d : List Char} (hd : ∀ c ∈ d, isDigitA c = true)
    (h1 : 1 ≤ d.length) (h2 : d.length ≤ 2) :
    (zfill2 d).length = 2 ∧ ∀ c ∈ zfill2 d, isDigitA c = true := by
  unfold zfill2
  by_cases hl : d.length ≥ 2
  · rw [if_pos hl]
    exact ⟨by omega, hd⟩
  · rw [if_neg hl, if_pos (by omega)]
    refine ⟨by simp; omega, ?_⟩
    intro c hc
    rcases List.mem_cons.1 hc with rfl | hc
    · decide
    · exact hd c hc

theorem zfill2_clamp {q : Prop} [Decidable q] {x : List Char}
    (hx : ∀ c ∈ x, isDigitA c = true) (ha : 1 ≤ x.length) (hb : x.length ≤ 2) :
    (zfill2 (if q then ['0', '1'] else x)).length = 2 ∧
    ∀ c ∈ zfill2 (if q then ['0', '1'] else x), isDigitA c = true := by
  split
  · exact zfill2_digits (by decide) (by decide) (by decide)
  · exact zfill2_digits hx ha hb

theorem mdy_isoDate {d1 d2 y : List Char}
    (h1 : ∀ c ∈ d1, isDigitA c = true) (h1a : 1 ≤ d1.length) (h1b : d1.length ≤ 2)
    (h2 : ∀ c ∈ d2, isDigitA c = true) (h2a : 1 ≤ d2.length) (h2b : d2.length ≤ 2)
    (hy : ∀ c ∈ y, isDigitA c = true) (hyl : y.length = 4) :
    isoDate (mdyResult d1 d2 y) = true := by
  unfold mdyResult
  rcases ha : digitsToNat? d1 with _ | a
  · have : isoDate (y ++ '-' :: ['0', '1'] ++ '-' :: ['0', '1']) = true :=
      isoDate_build hyl hy rfl (by decide) rfl (by decide)
    simpa [List.append_assoc] using this
  rcases hb : digitsToNat? d2 with _ | b
  · have : isoDate (y ++ '-' :: ['0', '1'] ++ '-' :: ['0', '1']) = true :=
      isoDate_build hyl hy rfl (by decide) rfl (by decide)
    simpa [List.append_assoc] using this
  dsimp only
  by_cases hcmp : a > 12
  · simp only [if_pos hcmp]
    have hm := zfill2_clamp (q := b < 1 ∨ 12 < b) h2 h2a h2b
    have hd := zfill2_clamp (q := a < 1 ∨ 31 < a) h1 h1a h1b
    exact isoDate_build hyl hy hm.1 hm.2 hd.1 hd.2
  · simp only [if_neg hcmp]
    have hm := zfill2_clamp (q := a < 1 ∨ 12 < a) h1 h1a h1b
    have hd := zfill2_clamp (q := b < 1 ∨ 31 < b) h2 h2a h2b
    exact isoDate_build hyl hy hm.1 hm.2 hd.1 hd.2

theorem stripped_of_isoAny {s : List Char} (h : IsoAny s) : Stripped s :=
  stripped_of_all (fun c hc => isoCharOK_not_space (isoAny_charOK h c hc))

theorem isoCharOK_ne_slash {c : Char} (h : isoCharOK c = true) : ¬(c = '/') := by
  intro he
  have h1 := isoCharOK_iff.1 h
  have h2 := char_eq_iff_toNat.1 he
  have hn : ('/' : Char).toNat = 47 := rfl
  omega

theorem contains_eq_false_iff {l : List Char} {c : Char} :
    l.contains c = false ↔ c ∉ l := by
  rw [← Bool.not_eq_true, List.contains_eq_any_beq]
  simp only [List.any_eq_true, beq_iff_eq, not_exists, not_and]
  constructor
  · intro h hm
    exact h c hm rfl
  · intro h x hx he
    exact h (he ▸ hx)

theorem slashfree_of_isoAny {s : List Char} (h : IsoAny s) : s.contains '/' = false := by
  rw [contains_eq_false_iff]
  intro hm
  exact isoCharOK_ne_slash (isoAny_charOK h '/' hm) rfl

theorem ddMmm_isoDate {s d m y mm : List Char}
    (hp : ddMmmParse s = some (d, m, y)) (hl : monthLookup (capitalize m) = some mm) :
    isoDate (y ++ '-' :: mm ++ '-' :: zfill2 d) = true := by
  obtain ⟨hd, hda, hdb, -, -, hy, hyl⟩ := ddMmmParse_groups hp
  obtain ⟨hml, hmd⟩ := monthLookup_digits hl
  have hz := zfill2_digits hd hda hdb
  exact isoDate_build hyl hy hml hmd hz.1 hz.2

theorem mmm_isoYM {s m y mm : List Char}
    (hp : mmmYParse s = some (m, y)) (hl : monthLookup (capitalize m) = some mm) :
    isoYM (y ++ '-' :: mm) = true := by
  obtain ⟨-, -, hy, hyl⟩ := mmmYParse_groups hp
  obtain ⟨hml, hmd⟩ := monthLookup_digits hl
  exact isoYM_build hyl hy hml hmd

theorem ymd_isoDate {s y m d : List Char} (hp : ymdParse s = some (y, m, d)) :
    isoDate (y ++ '-' :: zfill2 m ++ '-' :: zfill2 d) = true := by
  obtain ⟨hy, hyl, hm, hma, hmb, hd, hda, hdb⟩ := ymdParse_groups hp
  have hzm := zfill2_digits hm hma hmb
  have hzd := zfill2_digits hd hda hdb
  exact isoDate_build hyl hy hzm.1 hzm.2 hzd.1 hzd.2

theorem rangedOpt_some_elim {rec : List Char → List Char} {s r : List Char}
    (h : rangedOpt rec s = some r) :
    ∃ a b, s.contains '/' = true ∧ ddSlashParse s = none ∧
      splitSlash2 s = some (a, b) ∧ rec a ≠ [] ∧ rec b ≠ [] ∧
      r = rec a ++ '/' :: rec b := by
  unfold rangedOpt at h
  split at h
  · next hc =>
    rcases hs : splitSlash2 s with _ | ⟨a, b⟩
    · rw [hs] at h; exact absurd h (by simp)
    · rw [hs] at h
      dsimp only at h
      split at h
      · next hne =>
        simp only [Option.some.injEq] at h
        exact ⟨a, b, hc.1, hc.2, rfl, hne.1, hne.2, h.symm⟩
      · exact absurd h (by simp)
  · exact absurd h (by simp)

theorem firstSlash_unique {a b c d : List Char}
    (ha : '/' ∉ a) (hc : '/' ∉ c) (h : a ++ '/' :: b = c ++ '/' :: d) :
    a = c ∧ b = d := by
  induction a generalizing c with
  | nil =>
    cases c with
    | nil => simpa using h
    | cons y c' =>
      simp only [List.nil_append, List.cons_append, List.cons.injEq] at h
      exact absurd (by rw [h.1]; simp) hc
  | cons x a' ih =>
    cases c with
    | nil =>
      simp only [List.cons_append, List.nil_append, List.cons.injEq] at h
      exact absurd (by rw [← h.1]; simp) ha
    | cons y c' =>
      simp only [List.cons_append, List.cons.injEq] at h
      obtain ⟨rfl, h2⟩ := h
      have := ih (fun hm => ha (List.mem_cons_of_mem _ hm))
        (fun hm => hc (List.mem_cons_of_mem _ hm)) h2
      exact ⟨by rw [this.1], this.2⟩

theorem vdfCore_notIso {cfg : DateCfg} {rec : List Char → List Char} {s : List Char}
    (h : ¬IsoAny s) :
    vdfCore cfg rec s =
      match rangedOpt rec s with
      | some r => r
      | none =>
        match ddSlashParse s with
        | some (d1, d2, y) => mdyResult d1 d2 y
        | none => vdfTail cfg s := by
  unfold vdfCore
  rw [if_neg (fun x => h (Or.inl x)), if_neg (fun x => h (Or.inr (Or.inl x))),
    if_neg (fun x => h (Or.inr (Or.inr (Or.inl x)))),
    if_neg (fun x => h (Or.inr (Or.inr (Or.inr x))))]

/-- The conditions under which `validate_date_format` reaches its final
fallback (neither `DD-Mmm-YYYY` with a known month, nor `Mmm-YYYY` with a
known month, nor `YYYY/MM/DD` matched). -/
def FallsThroughTail (s : List Char) : Prop :=
  (∀ d m y, ddMmmParse s = some (d, m, y) → monthLookup (capitalize m) = none) ∧
  (∀ m y, mmmYParse s = some (m, y) → monthLookup (capitalize m) = none) ∧
  ymdParse s = none

theorem vdfTail3_out (cfg : DateCfg) (s : List Char) :
    (∃ y m d, ymdParse s = some (y, m, d) ∧
      vdfTail3 cfg s = y ++ '-' :: zfill2 m ++ '-' :: zfill2 d) ∨
    (ymdParse s = none ∧
      vdfTail3 cfg s = (if cfg.fallbackNotCollected then notCollected else s)) := by
  unfold vdfTail3
  cases h : ymdParse s with
  | none => exact Or.inr ⟨rfl, rfl⟩
  | some v =>
    obtain ⟨y, md⟩ := v
    obtain ⟨m, d⟩ := md
    exact Or.inl ⟨y, m, d, rfl, rfl⟩

theorem vdfTail2_out (cfg : DateCfg) (s : List Char) :
    (∃ m y mm, mmmYParse s = some (m, y) ∧
      monthLookup (capitalize m) = some mm ∧ vdfTail2 cfg s = y ++ '-' :: mm) ∨
    ((∀ m y, mmmYParse s = some (m, y) → monthLookup (capitalize m) = none) ∧
      vdfTail2 cfg s = vdfTail3 cfg s) := by
  unfold vdfTail2
  cases h : mmmYParse s with
  | none =>
    refine Or.inr ⟨?_, rfl⟩
    intro m y hp
    simp at hp
  | some v =>
    obtain ⟨m2, y2⟩ := v
    dsimp only
    cases h2 : monthLookup (capitalize m2) with
    | none =>
      refine Or.inr ⟨?_, rfl⟩
      intro m y hp
      simp only [Option.some.injEq, Prod.mk.injEq] at hp
      obtain ⟨rfl, -⟩ := hp
      exact h2
    | some mm => exact Or.inl ⟨m2, y2, mm, rfl, h2, rfl⟩

theorem vdfTail_out1 (cfg : DateCfg) (s : List Char) :
    (∃ d m y mm, ddMmmParse s = some (d, m, y) ∧
      monthLookup (capitalize m) = some mm ∧
      vdfTail cfg s = y ++ '-' :: mm ++ '-' :: zfill2 d) ∨
    ((∀ d m y, ddMmmParse s = some (d, m, y) → monthLookup (capitalize m) = none) ∧
      vdfTail cfg s = vdfTail2 cfg s) := by
  unfold vdfTail
  cases h : ddMmmParse s with
  | none =>
    refine Or.inr ⟨?_, rfl⟩
    intro d m y hp
    simp at hp
  | some v =>
    obtain ⟨d2, my⟩ := v
    obtain ⟨m2, y2⟩ := my
    dsimp only
    cases h2 : monthLookup (capitalize m2) with
    | none =>
      refine Or.inr ⟨?_, rfl⟩
      intro d m y hp
      simp only [Option.some.injEq, Prod.mk.injEq] at hp
      obtain ⟨-, rfl, -⟩ := hp
      exact h2
    | some mm => exact Or.inl ⟨d2, m2, y2, mm, rfl, h2, rfl⟩

theorem vdfTail_out (cfg : DateCfg) (s : List Char) :
    (∃ d m y mm, ddMmmParse s = some (d, m, y) ∧
      monthLookup (capitalize m) = some mm ∧
      vdfTail cfg s = y ++ '-' :: mm ++ '-' :: zfill2 d) ∨
    (∃ m y mm, mmmYParse s = some (m, y) ∧
      monthLookup (capitalize m) = some mm ∧
      vdfTail cfg s = y ++ '-' :: mm) ∨
    (∃ y m d, ymdParse s = some (y, m, d) ∧
      vdfTail cfg s = y ++ '-' :: zfill2 m ++ '-' :: zfill2 d) ∨
    (FallsThroughTail s ∧
      vdfTail cfg s = (if cfg.fallbackNotCollected then notCollected else s)) := by
  rcases vdfTail_out1 cfg s with h1 | ⟨hf1, he1⟩
  · exact Or.inl h1
  rcases vdfTail2_out cfg s with h2 | ⟨hf2, he2⟩
  · obtain ⟨m, y, mm, hp, hl, he⟩ := h2
    exact Or.inr (Or.inl ⟨m, y, mm, hp, hl, by rw [he1, he]⟩)
  rcases vdfTail3_out cfg s with h3 | ⟨hf3, he3⟩
  · obtain ⟨y, m, d, hp, he⟩ := h3
    exact Or.inr (Or.inr (Or.inl ⟨y, m, d, hp, by rw [he1, he2, he]⟩))
  · exact Or.inr (Or.inr (Or.inr ⟨⟨hf1, hf2, hf3⟩, by rw [he1, he2, he3]⟩))

theorem vdfRun_stripped (cfg : DateCfg) (hbl : Stripped cfg.blankResult) :
    ∀ n : Nat, ∀ l : List Char, l.length ≤ n → Stripped (vdfRun cfg l) := by
  intro n
  induction n with
  | zero =>
    intro l hl
    have : l = [] := List.length_eq_zero.1 (Nat.le_zero.1 hl)
    subst this
    rw [vdfRun_blank pyStrip_nil]
    exact hbl
  | succ n ih =>
    intro l hl
    by_cases h1 : pyStrip l = []
    · rw [vdfRun_blank h1]; exact hbl
    by_cases h2 : cfg.exactPre = true ∧
        (l = notCollected ∨ l = notProvided ∨ l = unknownStr)
    · rw [vdfRun_exact h1 h2]
      rcases h2.2 with rfl | rfl | rfl
      · exact stripped_notCollected
      · exact ⟨by decide, by decide⟩
      · exact ⟨by decide, by decide⟩
    by_cases h3 : SentinelCI (pyStrip l)
    · rw [vdfRun_ci h1 h2 h3]; exact stripped_pyStrip l
    rw [vdfRun_core h1 h2 h3]
    by_cases hIso : IsoAny (pyStrip l)
    · rw [vdfCore_iso hIso]; exact stripped_pyStrip l
    rw [vdfCore_notIso hIso]
    rcases hr : rangedOpt (vdfRun cfg) (pyStrip l) with _ | r
    · dsimp only
      rcases hdd : ddSlashParse (pyStrip l) with _ | ⟨d1, dd⟩
      · dsimp only
        rcases vdfTail_out cfg (pyStrip l) with
          ⟨d, m, y, mm, hp, hlk, he⟩ | ⟨m, y, mm, hp, hlk, he⟩ |
          ⟨y, m, d, hp, he⟩ | ⟨hft, he⟩
        · rw [he]
          exact stripped_of_isoAny (Or.inr (Or.inl (ddMmm_isoDate hp hlk)))
        · rw [he]
          exact stripped_of_isoAny (Or.inr (Or.inr (Or.inl (mmm_isoYM hp hlk))))
        · rw [he]
          exact stripped_of_isoAny (Or.inr (Or.inl (ymd_isoDate hp)))
        · rw [he]
          split
          · exact stripped_notCollected
          · exact stripped_pyStrip l
      · obtain ⟨d2, y⟩ := dd
        dsimp only
        obtain ⟨-, g1, g1a, g1b, g2, g2a, g2b, gy, gyl⟩ := ddSlashParse_sound hdd
        exact stripped_of_isoAny
          (Or.inr (Or.inl (mdy_isoDate g1 g1a g1b g2 g2a g2b gy gyl)))
    · dsimp only
      obtain ⟨a, b, hc, hdd, hsp, hna, hnb, hre⟩ := rangedOpt_some_elim hr
      rw [hre]
      have hlen := splitSlash2_length hsp
      have hsl := pyStrip_length l
      exact stripped_append_mid (ih a (by omega)) hna (ih b (by omega)) hnb

theorem contains_eq_true_iff {l : List Char} {c : Char} :
    l.contains c = true ↔ c ∈ l := by
  constructor
  · intro h
    by_contra hm
    rw [contains_eq_false_iff.2 hm] at h
    exact Bool.false_ne_true h
  · intro hm
    rcases ht : l.contains c with _ | _
    · exact absurd hm (contains_eq_false_iff.1 ht)
    · rfl

theorem pyStrip_contains_false {l : List Char} {c : Char}
    (h : l.contains c = false) : (pyStrip l).contains c = false := by
  rw [contains_eq_false_iff] at h ⊢
  exact fun hm => h (mem_of_mem_pyStrip hm)

theorem vdfRun_slashfree (cfg : DateCfg)
    (hbl : cfg.blankResult.contains '/' = false) :
    ∀ l : List Char, l.contains '/' = false →
      (vdfRun cfg l).contains '/' = false := by
  intro l hfree
  by_cases h1 : pyStrip l = []
  · rw [vdfRun_blank h1]; exact hbl
  by_cases h2 : cfg.exactPre = true ∧
      (l = notCollected ∨ l = notProvided ∨ l = unknownStr)
  · rw [vdfRun_exact h1 h2]; exact hfree
  by_cases h3 : SentinelCI (pyStrip l)
  · rw [vdfRun_ci h1 h2 h3]; exact pyStrip_contains_false hfree
  rw [vdfRun_core h1 h2 h3]
  by_cases hIso : IsoAny (pyStrip l)
  · rw [vdfCore_iso hIso]; exact pyStrip_contains_false hfree
  rw [vdfCore_notIso hIso]
  rcases hr : rangedOpt (vdfRun cfg) (pyStrip l) with _ | r
  · dsimp only
    rcases hdd : ddSlashParse (pyStrip l) with _ | ⟨d1, dd⟩
    · dsimp only
      rcases vdfTail_out cfg (pyStrip l) with
        ⟨d, m, y, mm, hp, hlk, he⟩ | ⟨m, y, mm, hp, hlk, he⟩ |
        ⟨y, m, d, hp, he⟩ | ⟨hft, he⟩
      · rw [he]
        exact slashfree_of_isoAny (Or.inr (Or.inl (ddMmm_isoDate hp hlk)))
      · rw [he]
        exact slashfree_of_isoAny (Or.inr (Or.inr (Or.inl (mmm_isoYM hp hlk))))
      · rw [he]
        exact slashfree_of_isoAny (Or.inr (Or.inl (ymd_isoDate hp)))
      · rw [he]
        split
        · decide
        · exact pyStrip_contains_false hfree
    · obtain ⟨d2, y⟩ := dd
      have hdec := (ddSlashParse_sound hdd).1
      have : ('/' : Char) ∈ pyStrip l := by rw [hdec]; simp
      have := mem_of_mem_pyStrip this
      rw [contains_eq_false_iff] at hfree
      exact absurd this hfree
  · obtain ⟨a, b, hc, -, -, -, -, -⟩ := rangedOpt_some_elim hr
    have : ('/' : Char) ∈ pyStrip l := contains_eq_true_iff.1 hc
    have := mem_of_mem_pyStrip this
    rw [contains_eq_false_iff] at hfree
    exact absurd this hfree

theorem stripped_notProvided : Stripped notProvided := ⟨by decide, by decide⟩

theorem stripped_unknownStr : Stripped unknownStr := ⟨by decide, by decide⟩

theorem rangedOpt_of (rec : List Char → List Char) {s a b : List Char}
    (hc : s.contains '/' = true) (hdd : ddSlashParse s = none)
    (hsp : splitSlash2 s = some (a, b)) (hna : rec a ≠ []) (hnb : rec b ≠ []) :
    rangedOpt rec s = some (rec a ++ '/' :: rec b) := by
  unfold rangedOpt
  rw [if_pos ⟨hc, hdd⟩, hsp]
  dsimp only
  rw [if_pos ⟨hna, hnb⟩]

theorem vdfTail_fallsThrough (cfg : DateCfg) {s : List Char}
    (h : FallsThroughTail s) :
    vdfTail cfg s = (if cfg.fallbackNotCollected then notCollected else s) := by
  rcases vdfTail_out cfg s with
    ⟨d, m, y, mm, hp, hlk, he⟩ | ⟨m, y, mm, hp, hlk, he⟩ |
    ⟨y, m, d, hp, he⟩ | ⟨-, he⟩
  · rw [h.1 d m y hp] at hlk; exact absurd hlk (by simp)
  · rw [h.2.1 m y hp] at hlk; exact absurd hlk (by simp)
  · rw [h.2.2] at hp; exact absurd hp (by simp)
  · exact he

theorem vdfRun_idem (cfg : DateCfg)
    (hbl : Stripped cfg.blankResult)
    (hbs : cfg.blankResult.contains '/' = false)
    (hfix : vdfRun cfg cfg.blankResult = cfg.blankResult) :
    ∀ n : Nat, ∀ l : List Char, l.length ≤ n →
      vdfRun cfg (vdfRun cfg l) = vdfRun cfg l := by
  intro n
  induction n with
  | zero =>
    intro l hl
    have : l = [] := List.length_eq_zero.1 (Nat.le_zero.1 hl)
    subst this
    rw [vdfRun_blank pyStrip_nil]
    exact hfix
  | succ n ih =>
    intro l hl
    by_cases h1 : pyStrip l = []
    · rw [vdfRun_blank h1]; exact hfix
    by_cases h2 : cfg.exactPre = true ∧
        (l = notCollected ∨ l = notProvided ∨ l = unknownStr)
    · rw [vdfRun_exact h1 h2]
      rcases h2.2 with h2' | h2' | h2' <;> rw [h2']
      · exact vdfRun_notCollected cfg
      · exact vdfRun_sentinel_fixed stripped_notProvided (Or.inr (Or.inl (by decide)))
      · exact vdfRun_sentinel_fixed stripped_unknownStr (Or.inr (Or.inr (by decide)))
    by_cases h3 : SentinelCI (pyStrip l)
    · rw [vdfRun_ci h1 h2 h3]
      exact vdfRun_sentinel_fixed (stripped_pyStrip l) h3
    rw [vdfRun_core h1 h2 h3]
    by_cases hIso : IsoAny (pyStrip l)
    · rw [vdfCore_iso hIso]
      exact vdfRun_iso_fixed hIso
    rw [vdfCore_notIso hIso]
    rcases hr : rangedOpt (vdfRun cfg) (pyStrip l) with _ | r
    · dsimp only
      rcases hdd : ddSlashParse (pyStrip l) with _ | ⟨d1, dd⟩
      · dsimp only
        rcases vdfTail_out cfg (pyStrip l) with
          ⟨d, m, y, mm, hp, hlk, he⟩ | ⟨m, y, mm, hp, hlk, he⟩ |
          ⟨y, m, d, hp, he⟩ | ⟨hft, he⟩
        · rw [he]
          exact vdfRun_iso_fixed (Or.inr (Or.inl (ddMmm_isoDate hp hlk)))
        · rw [he]
          exact vdfRun_iso_fixed (Or.inr (Or.inr (Or.inl (mmm_isoYM hp hlk))))
        · rw [he]
          exact vdfRun_iso_fixed (Or.inr (Or.inl (ymd_isoDate hp)))
        · rw [he]
          split
          · exact vdfRun_notCollected cfg
          · next hff =>
            -- unrecognized input: the second pass retraces the same failures
            have hps : pyStrip (pyStrip l) = pyStrip l := pyStrip_idem l
            have h2' : ¬(cfg.exactPre = true ∧ (pyStrip l = notCollected ∨
                pyStrip l = notProvided ∨ pyStrip l = unknownStr)) := by
              rintro ⟨-, hx | hx | hx⟩ <;>
                exact h3 (by rw [hx]; first
                  | exact Or.inl (by decide)
                  | exact Or.inr (Or.inl (by decide))
                  | exact Or.inr (Or.inr (by decide)))
            have h3' : ¬SentinelCI (pyStrip (pyStrip l)) := by rw [hps]; exact h3
            rw [vdfRun_core (by rw [hps]; exact h1) h2' h3', hps,
              vdfCore_notIso hIso, hr]
            dsimp only
            rw [hdd]
            dsimp only
            rw [vdfTail_fallsThrough cfg hft, if_neg hff]
      · obtain ⟨d2, y⟩ := dd
        dsimp only
        obtain ⟨-, g1, g1a, g1b, g2, g2a, g2b, gy, gyl⟩ := ddSlashParse_sound hdd
        exact vdfRun_iso_fixed
          (Or.inr (Or.inl (mdy_isoDate g1 g1a g1b g2 g2a g2b gy gyl)))
    · dsimp only
      obtain ⟨a, b, hc, hdd, hsp, hna, hnb, hre⟩ := rangedOpt_some_elim hr
      subst hre
      obtain ⟨hdec, hafree, hbfree⟩ := splitSlash2_sound hsp
      have hlen := splitSlash2_length hsp
      have hsl := pyStrip_length l
      have hale : a.length ≤ n := by omega
      have hble : b.length ≤ n := by omega
      have sva : Stripped (vdfRun cfg a) := vdfRun_stripped cfg hbl a.length a le_rfl
      have svb : Stripped (vdfRun cfg b) := vdfRun_stripped cfg hbl b.length b le_rfl
      have hfa : (vdfRun cfg a).contains '/' = false := vdfRun_slashfree cfg hbs a hafree
      have hfb : (vdfRun cfg b).contains '/' = false := vdfRun_slashfree cfg hbs b hbfree
      set r := vdfRun cfg a ++ '/' :: vdfRun cfg b with hrdef
      have hmem : ('/' : Char) ∈ r := by rw [hrdef]; simp
      have hrst : Stripped r := stripped_append_mid sva hna svb hnb
      have hpsr : pyStrip r = r := pyStrip_eq_self hrst
      have hrne : r ≠ [] := by rw [hrdef]; simp
      have h2' : ¬(cfg.exactPre = true ∧
          (r = notCollected ∨ r = notProvided ∨ r = unknownStr)) := by
        rintro ⟨-, hx | hx | hx⟩ <;> rw [hx] at hmem <;> exact absurd hmem (by decide)
      have h3' : ¬SentinelCI r := by
        intro hx
        have hlm : ('/' : Char) ∈ lowerL r := by
          have hv := List.mem_map_of_mem lowerC hmem
          rwa [show lowerC '/' = '/' from by decide] at hv
        rcases hx with hx | hx | hx <;> rw [hx] at hlm <;> exact absurd hlm (by decide)
      have hIso' : ¬IsoAny r := by
        intro hx
        exact absurd (isoAny_charOK hx '/' hmem) (by decide)
      have hdd' : ddSlashParse r = none := by
        rcases hx : ddSlashParse r with _ | ⟨e1, e2y⟩
        · rfl
        · obtain ⟨e2, ey⟩ := e2y
          obtain ⟨hxdec, he1, -, -, -, -, -, -, -⟩ := ddSlashParse_sound hx
          have he1free : '/' ∉ e1 := fun hm => isDigitA_ne_slash (he1 '/' hm) rfl
          have hu := firstSlash_unique (contains_eq_false_iff.1 hfa) he1free
            (hrdef ▸ hxdec.symm).symm
          rw [← hu.2] at hxdec
          have : ('/' : Char) ∈ vdfRun cfg b := by
            rw [hu.2]; simp
          exact absurd this (contains_eq_false_iff.1 hfb)
      have hsp' : splitSlash2 r = some (vdfRun cfg a, vdfRun cfg b) :=
        splitSlash2_complete hfa hfb
      have hcr : r.contains '/' = true := contains_eq_true_iff.2 hmem
      have hia := ih a hale
      have hib := ih b hble
      have hna' : vdfRun cfg (vdfRun cfg a) ≠ [] := by rw [hia]; exact hna
      have hnb' : vdfRun cfg (vdfRun cfg b) ≠ [] := by rw [hib]; exact hnb
      rw [vdfRun_core (by rw [hpsr]; exact hrne) h2' (by rw [hpsr]; exact h3'),
        hpsr, vdfCore_notIso hIso',
        rangedOpt_of (vdfRun cfg) hcr hdd' hsp' hna' hnb']
      dsimp only
      rw [hia, hib]

theorem SraValidate.validate_date_format_idem (l : List Char) :
    SraValidate.validate_date_format (SraValidate.validate_date_format l) =
      SraValidate.validate_date_format l :=
  vdfRun_idem sraValidateCfg
    (show Stripped sraValidateCfg.blankResult from
      ⟨by simp [sraValidateCfg], by simp [sraValidateCfg]⟩)
    rfl (vdfRun_blank pyStrip_nil) l.length l le_rfl

/-! ## The geographic-location normalizer `validate_geo_loc_name` -/

/-- The full geo regex: letters or whitespace on both sides of a single
colon, both sides non-empty. -/
def geoFull (l : List Char) : Bool :=
  let a := l.takeWhile isAlphaSpace
  match l.dropWhile isAlphaSpace with
  | ':' :: b => !a.isEmpty && (!b.isEmpty && b.all isAlphaSpace)
  | _ => false

/-- `re.match` of `^[A-Za-z\s]+$`. -/
def geoCountry (l : List Char) : Bool := !l.isEmpty && l.all isAlphaSpace

/-- `validate_geo_loc_name` of `sra_validate.py` (lines 287-308). -/
def validate_geo_loc_name (l : List Char) : List Char :=
  if pyStrip l = [] then []
  else
    let g := pyStrip l
    if geoFull g then g
    else if geoCountry g = true ∧ ¬(g.contains ':' = true) then g ++ [':']
    else g

theorem geo_blank {l : List Char} (h : pyStrip l = []) :
    validate_geo_loc_name l = [] := by
  unfold validate_geo_loc_name
  rw [if_pos h]

theorem geo_full_case {l : List Char} (h1 : pyStrip l ≠ [])
    (h2 : geoFull (pyStrip l) = true) :
    validate_geo_loc_name l = pyStrip l := by
  unfold validate_geo_loc_name
  rw [if_neg h1]
  dsimp only
  rw [if_pos h2]

theorem geo_country_case {l : List Char} (h1 : pyStrip l ≠ [])
    (h2 : ¬(geoFull (pyStrip l) = true))
    (h3 : geoCountry (pyStrip l) = true ∧ ¬((pyStrip l).contains ':' = true)) :
    validate_geo_loc_name l = pyStrip l ++ [':'] := by
  unfold validate_geo_loc_name
  rw [if_neg h1]
  dsimp only
  rw [if_neg h2, if_pos h3]

theorem geo_other_case {l : List Char} (h1 : pyStrip l ≠ [])
    (h2 : ¬(geoFull (pyStrip l) = true))
    (h3 : ¬(geoCountry (pyStrip l) = true ∧ ¬((pyStrip l).contains ':' = true))) :
    validate_geo_loc_name l = pyStrip l := by
  unfold validate_geo_loc_name
  rw [if_neg h1]
  dsimp only
  rw [if_neg h2, if_neg h3]

theorem validate_geo_loc_name_idem (l : List Char) :
    validate_geo_loc_name (validate_geo_loc_name l) = validate_geo_loc_name l := by
  by_cases h1 : pyStrip l = []
  · rw [geo_blank h1, geo_blank pyStrip_nil]
  have hpp : pyStrip (pyStrip l) = pyStrip l := pyStrip_idem l
  by_cases h2 : geoFull (pyStrip l) = true
  · rw [geo_full_case h1 h2, geo_full_case (by rw [hpp]; exact h1) (by rw [hpp]; exact h2),
      hpp]
  by_cases h3 : geoCountry (pyStrip l) = true ∧ ¬((pyStrip l).contains ':' = true)
  · rw [geo_country_case h1 h2 h3]
    set g := pyStrip l with hg
    have hall : ∀ c ∈ g, isAlphaSpace c = true := by
      have := h3.1
      unfold geoCountry at this
      simp only [Bool.and_eq_true, List.all_eq_true] at this
      exact this.2
    have hgne : g ≠ [] := h1
    have hst : Stripped (g ++ [':']) := by
      constructor
      · rw [List.head?_append_of_ne_nil _ hgne]
        exact (stripped_pyStrip l).1
      · rw [List.getLast?_concat]
        intro c hc
        simp only [Option.mem_def, Option.some.injEq] at hc
        subst hc
        decide
    have hps : pyStrip (g ++ [':']) = g ++ [':'] := pyStrip_eq_self hst
    have hspan := span_exact (p := isAlphaSpace) (r := [':']) hall
      (by intro c hc; simp only [List.head?_cons, Option.mem_def,
            Option.some.injEq] at hc; subst hc; decide)
    have hfull : geoFull (g ++ [':']) = false := by
      unfold geoFull
      rw [hspan.2]
      simp
    have hcont : (g ++ [':']).contains ':' = true := by
      rw [contains_eq_true_iff]
      simp
    rw [geo_other_case (by rw [hps]; simp) (by rw [hps, hfull]; simp)
      (by rw [hps]; rintro ⟨-, hx⟩; exact hx hcont), hps]
  · rw [geo_other_case h1 h2 h3,
      geo_other_case (by rw [hpp]; exact h1) (by rw [hpp]; exact h2)
        (by rw [hpp]; exact h3), hpp]

/-! ## The latitude/longitude normalizer `validate_lat_lon`

Python's `float()` parsing and `str()` formatting of the decimal branch are
modelled by two parameters: `fmt g` stands for `str(abs(float(g)))` and
`isNonNeg g` for `float(g) >= 0`.  The idempotence proof only needs that
`str` never returns an empty or whitespace-padded string, which holds for
every Python float. -/

/-- Parse a `\d+\.\d+` prefix, returning the matched group and the rest. -/
def unsignedNum (l : List Char) : Option (List Char × List Char) :=
  let i := l.takeWhile isDigitA
  let r := l.dropWhile isDigitA
  if i.isEmpty then none else
    match r with
    | '.' :: r2 =>
      let f := r2.takeWhile isDigitA
      let r3 := r2.dropWhile isDigitA
      if f.isEmpty then none else some (i ++ '.' :: f, r3)
    | _ => none

/-- Parse a `[-]?\d+\.\d+` prefix. -/
def signedNum (l : List Char) : Option (List Char × List Char) :=
  match l with
  | '-' :: r => (unsignedNum r).map (fun p => ('-' :: p.1, p.2))
  | _ => unsignedNum l

/-- The `re` class `[,\s]` separating the two decimal numbers. -/
def isSepLL (c : Char) : Bool := c = ',' || isPySpace c

/-- `re.match` of the canonical form `^\d+\.\d+ [NS] \d+\.\d+ [EW]$`. -/
def canonLL (l : List Char) : Bool :=
  match unsignedNum l with
  | some (_, r1) =>
    match r1 with
    | ' ' :: c1 :: ' ' :: rest =>
      (c1 = 'N' || c1 = 'S') &&
        (match unsignedNum rest with
         | some (_, r2) =>
           match r2 with
           | [' ', c2] => c2 = 'E' || c2 = 'W'
           | _ => false
         | none => false)
    | _ => false
  | none => false

/-- `re.match` of `^([-]?\d+\.\d+)[,\s]+([-]?\d+\.\d+)$`, returning the two
captured groups exactly as written (signs included). -/
def decimalLL (l : List Char) : Option (List Char × List Char) :=
  match signedNum l with
  | some (g1, r1) =>
    let seps := r1.takeWhile isSepLL
    let r2 := r1.dropWhile isSepLL
    if seps.isEmpty then none
    else
      match signedNum r2 with
      | some (g2, r3) => if r3.isEmpty then some (g1, g2) else none
      | none => none
  | none => none

/-- `validate_lat_lon` of `sra_validate.py` (lines 310-346), with Python's
float round-trip abstracted as `fmt`/`isNonNeg`. -/
def validate_lat_lon (fmt : List Char → List Char) (isNonNeg : List Char → Bool)
    (l : List Char) : List Char :=
  if pyStrip l = [] then []
  else
    let s := pyStrip l
    if canonLL s then s
    else
      match decimalLL s with
      | some (lat, lon) =>
        fmt lat ++ ' ' :: (if isNonNeg lat then 'N' else 'S') :: ' ' ::
          (fmt lon ++ [' ', if isNonNeg lon then 'E' else 'W'])
      | none => s

theorem unsignedNum_sound {l g r : List Char} (h : unsignedNum l = some (g, r)) :
    l = g ++ r ∧ g ≠ [] ∧ ∃ c, g.getLast? = some c ∧ isDigitA c = true := by
  unfold unsignedNum at h
  simp only at h
  split at h
  · exact absurd h (by simp)
  · next hi =>
    split at h
    · next r2 hr =>
      split at h
      · exact absurd h (by simp)
      · next hf =>
        simp only [Option.some.injEq, Prod.mk.injEq] at h
        obtain ⟨rfl, rfl⟩ := h
        have hl : l = l.takeWhile isDigitA ++ ('.' :: r2) := by
          conv_lhs => rw [← List.takeWhile_append_dropWhile isDigitA l]
          rw [hr]
        have hr2 : r2 = r2.takeWhile isDigitA ++ r2.dropWhile isDigitA :=
          (List.takeWhile_append_dropWhile isDigitA r2).symm
        refine ⟨?_, by simp, ?_⟩
        · have hassoc : (l.takeWhile isDigitA ++ '.' :: r2.takeWhile isDigitA) ++
              r2.dropWhile isDigitA = l.takeWhile isDigitA ++ '.' :: r2 := by
            rw [List.append_assoc, List.cons_append,
              List.takeWhile_append_dropWhile]
          rw [hassoc]
          exact hl
        · have hfne : r2.takeWhile isDigitA ≠ [] := by
            simpa [List.isEmpty_iff] using hf
          rcases hlast : (r2.takeWhile isDigitA).getLast? with _ | c
          · rw [List.getLast?_eq_none_iff] at hlast
            exact absurd hlast hfne
          · refine ⟨c, ?_, ?_⟩
            · rw [List.getLast?_append_of_ne_nil _ (by simp)]
              rw [show ('.' :: r2.takeWhile isDigitA).getLast? =
                  (r2.takeWhile isDigitA).getLast? from ?_, hlast]
              cases hx : r2.takeWhile isDigitA with
              | nil => exact absurd hx hfne
              | cons d rest => rw [List.getLast?_cons_cons]
            · exact List.mem_takeWhile_imp (List.mem_of_mem_getLast? hlast)
    · exact absurd h (by simp)

theorem signedNum_sound {l g r : List Char} (h : signedNum l = some (g, r)) :
    l = g ++ r ∧ g ≠ [] ∧ ∃ c, g.getLast? = some c ∧ isDigitA c = true := by
  unfold signedNum at h
  split at h
  · next r' =>
    rcases hu : unsignedNum r' with _ | ⟨g', r''⟩
    · rw [hu] at h; exact absurd h (by simp)
    · rw [hu] at h
      simp only [Option.map_some', Option.some.injEq, Prod.mk.injEq] at h
      obtain ⟨rfl, rfl⟩ := h
      obtain ⟨hdec, hne, c, hc, hcd⟩ := unsignedNum_sound hu
      refine ⟨by rw [hdec]; rfl, by simp, c, ?_, hcd⟩
      rw [show ('-' :: g').getLast? = g'.getLast? from ?_, hc]
      cases hx : g' with
      | nil => exact absurd hx hne
      | cons d rest => rw [List.getLast?_cons_cons]
  · exact unsignedNum_sound h

theorem getLast?_cons_of_ne_nil {α : Type} {a : α} {t : List α} (h : t ≠ []) :
    (a :: t).getLast? = t.getLast? := by
  cases t with
  | nil => exact absurd rfl h
  | cons b r => rw [List.getLast?_cons_cons]

theorem decimalLL_getLast {l g1 g2 : List Char} (h : decimalLL l = some (g1, g2)) :
    ∃ c, l.getLast? = some c ∧ isDigitA c = true := by
  unfold decimalLL at h
  split at h
  · next g1' r1 hsn =>
    dsimp only at h
    split at h
    · exact absurd h (by simp)
    · next hseps =>
      split at h
      · next g2' r3 hsn2 =>
        split at h
        · next hr3 =>
          simp only [Option.some.injEq, Prod.mk.injEq] at h
          obtain ⟨rfl, rfl⟩ := h
          obtain ⟨hd1, -, -⟩ := signedNum_sound hsn
          obtain ⟨hd2, hne2, c, hc, hcd⟩ := signedNum_sound hsn2
          have hr3' : r3 = [] := by simpa [List.isEmpty_iff] using hr3
          subst hr3'
          rw [List.append_nil] at hd2
          have hr1 : r1 = r1.takeWhile isSepLL ++ r1.dropWhile isSepLL :=
            (List.takeWhile_append_dropWhile _ _).symm
          have hr1ne : r1 ≠ [] := by
            intro hx
            rw [hx] at hd2
            exact hne2 (by simpa using hd2.symm)
          refine ⟨c, ?_, hcd⟩
          rw [hd1, List.getLast?_append_of_ne_nil _ hr1ne]
          conv_lhs => rw [hr1]
          rw [hd2, List.getLast?_append_of_ne_nil _ hne2, hc]
        · exact absurd h (by simp)
      · exact absurd h (by simp)
  · exact absurd h (by simp)

theorem ll_blank {fmt : List Char → List Char} {inn : List Char → Bool}
    {l : List Char} (h : pyStrip l = []) : validate_lat_lon fmt inn l = [] := by
  unfold validate_lat_lon
  rw [if_pos h]

theorem ll_canon {fmt : List Char → List Char} {inn : List Char → Bool}
    {l : List Char} (h1 : pyStrip l ≠ []) (h2 : canonLL (pyStrip l) = true) :
    validate_lat_lon fmt inn l = pyStrip l := by
  unfold validate_lat_lon
  rw [if_neg h1]
  dsimp only
  rw [if_pos h2]

theorem ll_decimal {fmt : List Char → List Char} {inn : List Char → Bool}
    {l lat lon : List Char} (h1 : pyStrip l ≠ [])
    (h2 : ¬(canonLL (pyStrip l) = true))
    (h3 : decimalLL (pyStrip l) = some (lat, lon)) :
    validate_lat_lon fmt inn l =
      fmt lat ++ ' ' :: (if inn lat then 'N' else 'S') :: ' ' ::
        (fmt lon ++ [' ', if inn lon then 'E' else 'W']) := by
  unfold validate_lat_lon
  rw [if_neg h1]
  dsimp only
  rw [if_neg h2, h3]

theorem ll_none {fmt : List Char → List Char} {inn : List Char → Bool}
    {l : List Char} (h1 : pyStrip l ≠ [])
    (h2 : ¬(canonLL (pyStrip l) = true))
    (h3 : decimalLL (pyStrip l) = none) :
    validate_lat_lon fmt inn l = pyStrip l := by
  unfold validate_lat_lon
  rw [if_neg h1]
  dsimp only
  rw [if_neg h2, h3]

theorem validate_lat_lon_idem (fmt : List Char → List Char)
    (isNonNeg : List Char → Bool)
    (hfmt : ∀ g, fmt g ≠ [] ∧ Stripped (fmt g)) (l : List Char) :
    validate_lat_lon fmt isNonNeg (validate_lat_lon fmt isNonNeg l) =
      validate_lat_lon fmt isNonNeg l := by
  by_cases h1 : pyStrip l = []
  · rw [ll_blank h1, ll_blank pyStrip_nil]
  have hpp : pyStrip (pyStrip l) = pyStrip l := pyStrip_idem l
  by_cases h2 : canonLL (pyStrip l) = true
  · rw [ll_canon h1 h2, ll_canon (by rw [hpp]; exact h1) (by rw [hpp]; exact h2), hpp]
  rcases h3 : decimalLL (pyStrip l) with _ | ⟨lat, lon⟩
  · rw [ll_none h1 h2 h3, ll_none (by rw [hpp]; exact h1) (by rw [hpp]; exact h2)
      (by rw [hpp]; exact h3), hpp]
  · rw [ll_decimal h1 h2 h3]
    set d2 := (if isNonNeg lon then 'E' else 'W') with hd2
    set d1 := (if isNonNeg lat then 'N' else 'S') with hd1
    set o := fmt lat ++ ' ' :: d1 :: ' ' :: (fmt lon ++ [' ', d2]) with ho
    have hlatne := (hfmt lat).1
    have hlonne := (hfmt lon).1
    have hone : o ≠ [] := by
      rw [ho]
      intro hx
      rcases List.append_eq_nil.1 hx with ⟨-, hx2⟩
      simp at hx2
    have hlast : o.getLast? = some d2 := by
      rw [ho, List.getLast?_append_of_ne_nil _ (by simp)]
      rw [List.getLast?_cons_cons, List.getLast?_cons_cons,
        getLast?_cons_of_ne_nil (by simp),
        show fmt lon ++ [' ', d2] = (fmt lon ++ [' ']) ++ [d2] by simp,
        List.getLast?_concat]
    have hstr : Stripped o := by
      constructor
      · rw [ho, List.head?_append_of_ne_nil _ hlatne]
        exact (hfmt lat).2.1
      · intro c hc
        rw [hlast] at hc
        simp only [Option.mem_def, Option.some.injEq] at hc
        subst hc
        rw [hd2]
        split <;> decide
    have hps : pyStrip o = o := pyStrip_eq_self hstr
    have hdec : decimalLL o = none := by
      rcases hx : decimalLL o with _ | ⟨p, q⟩
      · rfl
      · obtain ⟨c, hc, hcd⟩ := decimalLL_getLast hx
        rw [hlast] at hc
        simp only [Option.some.injEq] at hc
        subst hc
        rw [hd2] at hcd
        split at hcd <;> exact absurd hcd (by decide)
    by_cases hcan : canonLL o = true
    · rw [ll_canon (by rw [hps]; exact hone) (by rw [hps]; exact hcan), hps]
    · rw [ll_none (by rw [hps]; exact hone) (by rw [hps]; exact hcan)
        (by rw [hps]; exact hdec), hps]

/-! ## Routing of `D/D/YYYY` inputs and of unrecognized inputs -/

theorem slash_mem_not_sentinelCI {s : List Char} (hmem : ('/' : Char) ∈ s) :
    ¬SentinelCI s := by
  intro hx
  have hlm : ('/' : Char) ∈ lowerL s := by
    have hv := List.mem_map_of_mem lowerC hmem
    rwa [show lowerC '/' = '/' from by decide] at hv
  rcases hx with hx | hx | hx <;> rw [hx] at hlm <;> exact absurd hlm (by decide)

theorem mdy_routing {d1 d2 y : List Char}
    (h1 : ∀ c ∈ d1, isDigitA c = true) (h1a : 1 ≤ d1.length) (h1b : d1.length ≤ 2)
    (h2 : ∀ c ∈ d2, isDigitA c = true) (h2a : 1 ≤ d2.length) (h2b : d2.length ≤ 2)
    (hy : ∀ c ∈ y, isDigitA c = true) (hyl : y.length = 4) :
    SraValidate.validate_date_format (d1 ++ '/' :: (d2 ++ '/' :: y)) =
      mdyResult d1 d2 y := by
  set s := d1 ++ '/' :: (d2 ++ '/' :: y) with hs
  have hdd : ddSlashParse s = some (d1, d2, y) :=
    ddSlashParse_complete h1 h1a h1b h2 h2a h2b hy hyl
  have hmem : ('/' : Char) ∈ s := by rw [hs]; simp
  have hchar : ∀ c ∈ s, isDigitA c = true ∨ c = '/' := by
    intro c hc
    rw [hs] at hc
    simp only [List.mem_append, List.mem_cons] at hc
    rcases hc with hc | rfl | hc
    · exact Or.inl (h1 c hc)
    · exact Or.inr rfl
    · rcases hc with hc | rfl | hc
      · exact Or.inl (h2 c hc)
      · exact Or.inr rfl
      · exact Or.inl (hy c hc)
  have hnospace : ∀ c ∈ s, isPySpace c = false := by
    intro c hc
    rcases hchar c hc with hd | rfl
    · exact isDigitA_not_space hd
    · decide
  have hps : pyStrip s = s := pyStrip_eq_self (stripped_of_all hnospace)
  have hne : s ≠ [] := fun hx => by rw [hx] at hmem; simp at hmem
  have hci : ¬SentinelCI s := slash_mem_not_sentinelCI hmem
  have hexact : ¬(sraValidateCfg.exactPre = true ∧
      (s = notCollected ∨ s = notProvided ∨ s = unknownStr)) := by
    rintro ⟨-, hx | hx | hx⟩ <;> rw [hx] at hmem <;> exact absurd hmem (by decide)
  have hiso : ¬IsoAny s := by
    intro hx
    exact absurd (isoAny_charOK hx '/' hmem) (by decide)
  have hro : rangedOpt (vdfRun sraValidateCfg) s = none := by
    unfold rangedOpt
    rw [if_neg]
    rintro ⟨-, hx⟩
    rw [hdd] at hx
    exact absurd hx (by simp)
  show vdfRun sraValidateCfg s = mdyResult d1 d2 y
  rw [vdfRun_core (by rw [hps]; exact hne) hexact (by rw [hps]; exact hci), hps,
    vdfCore_notIso hiso, hro]
  dsimp only
  rw [hdd]

/-- Input that `validate_date_format` does not recognize: non-blank and
stripped, no sentinel, no ISO form, no `D/D/YYYY` date, no two-part split on
`'/'`, and none of the `DD-Mmm-YYYY`/`Mmm-YYYY`/`YYYY/MM/DD` patterns. -/
def Unrecognized (s : List Char) : Prop :=
  pyStrip s = s ∧ s ≠ [] ∧ ¬SentinelCI s ∧ ¬IsoAny s ∧
  ddSlashParse s = none ∧ (s.contains '/' = true → splitSlash2 s = none) ∧
  FallsThroughTail s

theorem unrecognized_run (cfg : DateCfg) {s : List Char} (h : Unrecognized s) :
    vdfRun cfg s = (if cfg.fallbackNotCollected then notCollected else s) := by
  obtain ⟨hps, hne, hci, hiso, hdd, hsp, hft⟩ := h
  have hexact : ¬(cfg.exactPre = true ∧
      (s = notCollected ∨ s = notProvided ∨ s = unknownStr)) := by
    rintro ⟨-, hx | hx | hx⟩ <;> refine hci ?_ <;> rw [hx]
    · exact Or.inl (by decide)
    · exact Or.inr (Or.inl (by decide))
    · exact Or.inr (Or.inr (by decide))
  have hro : rangedOpt (vdfRun cfg) s = none := by
    unfold rangedOpt
    by_cases hc : s.contains '/' = true ∧ ddSlashParse s = none
    · rw [if_pos hc, hsp hc.1]
    · rw [if_neg hc]
  rw [vdfRun_core (by rw [hps]; exact hne) hexact (by rw [hps]; exact hci), hps,
    vdfCore_notIso hiso, hro]
  dsimp only
  rw [hdd]
  dsimp only
  exact vdfTail_fallsThrough cfg hft

/-! ## Claim theorems: the date normalizer (C1, C3, C4, C5) -/

/-- C1, counterexample: the claim says the date normalizer maps empty input
to `"not collected"`, never to the empty string; but `validate_date_format`
in `sra_validate.py` returns the empty string on empty input. -/
theorem claim_C1_counterexample :
    SraValidate.validate_date_format [] = [] ∧
    SraValidate.validate_date_format [] ≠ notCollected := by
  refine ⟨rfl, ?_⟩
  decide

/-- C1 (amended): blank (empty or all-whitespace) input maps to
`"not collected"` in `fix_dates.py`'s date normalizer, but to the empty
string — not `"not collected"` — in `sra_validate.py`'s. -/
theorem claim_C1_blank_behavior (l : List Char) (h : pyStrip l = []) :
    FixDates.validate_date_format l = notCollected ∧
    SraValidate.validate_date_format l = [] :=
  ⟨vdfRun_blank h, vdfRun_blank h⟩

/-- Witness for C1's amended theorem at the two-space string. -/
theorem claim_C1_witness :
    FixDates.validate_date_format [' ', ' '] = notCollected ∧
    SraValidate.validate_date_format [' ', ' '] = [] :=
  claim_C1_blank_behavior [' ', ' '] (by decide)

/-- C3: for every input of shape `D{1,2}/D{1,2}/YYYY`, the date normalizer
interprets it as month/day/year unless the first number exceeds 12 (then
day/month/year); after disambiguation an out-of-range month (not 1-12) or
day (not 1-31) is replaced by `"01"`; on a numeric-parse failure the result
is `{year}-01-01`; and `7/24/2017` and `24/7/2017` both map to
`2017-07-24`. -/
theorem claim_C3_mdy_disambiguation (d1 d2 y : List Char)
    (h1 : ∀ c ∈ d1, isDigitA c = true) (h1a : 1 ≤ d1.length) (h1b : d1.length ≤ 2)
    (h2 : ∀ c ∈ d2, isDigitA c = true) (h2a : 1 ≤ d2.length) (h2b : d2.length ≤ 2)
    (hy : ∀ c ∈ y, isDigitA c = true) (hyl : y.length = 4) :
    (SraValidate.validate_date_format (d1 ++ '/' :: (d2 ++ '/' :: y)) =
      mdyResult d1 d2 y) ∧
    (∀ a b, digitsToNat? d1 = some a → digitsToNat? d2 = some b →
      mdyResult d1 d2 y =
        y ++ '-' :: zfill2 (if (if a > 12 then b else a) < 1 ∨
              12 < (if a > 12 then b else a)
            then ['0', '1'] else (if a > 12 then d2 else d1)) ++
          '-' :: zfill2 (if (if a > 12 then a else b) < 1 ∨
              31 < (if a > 12 then a else b)
            then ['0', '1'] else (if a > 12 then d1 else d2))) ∧
    (∀ e1 e2 z : List Char, digitsToNat? e1 = none ∨ digitsToNat? e2 = none →
      mdyResult e1 e2 z = z ++ ['-', '0', '1', '-', '0', '1']) ∧
    SraValidate.validate_date_format "7/24/2017".data = "2017-07-24".data ∧
    SraValidate.validate_date_format "24/7/2017".data = "2017-07-24".data := by
  refine ⟨mdy_routing h1 h1a h1b h2 h2a h2b hy hyl, ?_, ?_, by decide, by decide⟩
  · intro a b ha hb
    unfold mdyResult
    rw [ha, hb]
  · intro e1 e2 z hz
    unfold mdyResult
    rcases hx : digitsToNat? e1 with _ | a
    · rfl
    · rcases hx2 : digitsToNat? e2 with _ | b
      · rfl
      · rw [hx] at hz
        rcases hz with hz | hz
        · exact absurd hz (by simp)
        · rw [hx2] at hz
          exact absurd hz (by simp)

/-- Witness for C3 at `7/24/2017`. -/
theorem claim_C3_witness :
    SraValidate.validate_date_format "7/24/2017".data =
      mdyResult ['7'] ['2', '4'] ['2', '0', '1', '7'] :=
  (claim_C3_mdy_disambiguation ['7'] ['2', '4'] ['2', '0', '1', '7']
    (by decide) (by decide) (by decide) (by decide) (by decide) (by decide)
    (by decide) (by decide)).1

/-- C4: the three field normalizers of `sra_validate.py` are idempotent:
`validate_date_format`, `validate_geo_loc_name`, and `validate_lat_lon`
(the latter for every float formatter that returns a non-empty,
non-whitespace-padded string, which Python's `str` is). -/
theorem claim_C4_normalizers_idempotent :
    (∀ l : List Char,
      SraValidate.validate_date_format (SraValidate.validate_date_format l) =
        SraValidate.validate_date_format l) ∧
    (∀ l : List Char,
      validate_geo_loc_name (validate_geo_loc_name l) =
        validate_geo_loc_name l) ∧
    (∀ (fmt : List Char → List Char) (isNonNeg : List Char → Bool),
      (∀ g, fmt g ≠ [] ∧ Stripped (fmt g)) →
      ∀ l : List Char,
        validate_lat_lon fmt isNonNeg (validate_lat_lon fmt isNonNeg l) =
          validate_lat_lon fmt isNonNeg l) :=
  ⟨SraValidate.validate_date_format_idem, validate_geo_loc_name_idem,
    validate_lat_lon_idem⟩

/-- Witness for C4 at concrete inputs (with a constant formatter standing
in for Python's `str`). -/
theorem claim_C4_witness :
    SraValidate.validate_date_format
        (SraValidate.validate_date_format "Jul-2023".data) =
      SraValidate.validate_date_format "Jul-2023".data ∧
    validate_geo_loc_name (validate_geo_loc_name "USA".data) =
      validate_geo_loc_name "USA".data ∧
    validate_lat_lon (fun _ => ['1', '.', '5']) (fun _ => true)
        (validate_lat_lon (fun _ => ['1', '.', '5']) (fun _ => true)
          "36.9513, -122.0733".data) =
      validate_lat_lon (fun _ => ['1', '.', '5']) (fun _ => true)
        "36.9513, -122.0733".data :=
  ⟨claim_C4_normalizers_idempotent.1 _,
   claim_C4_normalizers_idempotent.2.1 _,
   claim_C4_normalizers_idempotent.2.2 _ _
     (fun g => ⟨by decide, by decide, by decide⟩) _⟩

/-- C5, counterexample: the claim says unrecognized non-empty input is
returned unchanged, never coerced to a default; but `fix_dates.py`'s
normalizer (cited by the claim) maps `"garbage"` to `"not collected"`. -/
theorem claim_C5_counterexample :
    FixDates.validate_date_format "garbage".data = notCollected ∧
    FixDates.validate_date_format "garbage".data ≠ "garbage".data := by
  refine ⟨rfl, ?_⟩
  decide

/-- C5 (amended): for non-empty input recognized by none of the formats,
`sra_validate.py`'s normalizer returns the value unchanged (only logging a
warning and continuing), while `fix_dates.py`'s replaces it with the
default `"not collected"`. -/
theorem claim_C5_unrecognized (s : List Char) (h : Unrecognized s) :
    SraValidate.validate_date_format s = s ∧
    FixDates.validate_date_format s = notCollected :=
  ⟨unrecognized_run sraValidateCfg h, unrecognized_run fixDatesCfg h⟩

/-- Witness for C5 at the string `garbage`. -/
theorem claim_C5_witness :
    SraValidate.validate_date_format "garbage".data = "garbage".data ∧
    FixDates.validate_date_format "garbage".data = notCollected :=
  claim_C5_unrecognized "garbage".data
    ⟨by decide, by decide, by unfold SentinelCI; decide,
     by unfold IsoAny; decide, by decide,
     fun hx => absurd hx (by decide),
     ⟨fun d m y hp => by
        rw [show ddMmmParse "garbage".data = none from by decide] at hp
        exact absurd hp (by simp),
      fun m y hp => by
        rw [show mmmYParse "garbage".data = none from by decide] at hp
        exact absurd hp (by simp),
      by decide⟩⟩

/-! ## Controlled-vocabulary coercion (C2)

From `validate_sample_metadata` in `sra_validate.py`: lines 719-726 fix
`library_layout` synonyms, lines 728-735 replace a non-empty value outside
the field's `VALID_OPTIONS` with the `default_values` entry when one
exists.  `pd.notna` is true for every string cell, so only the `value != ""`
guard is modelled. -/

/-- The `library_layout` lambda (lines 722-726 of `sra_validate.py`). -/
def fixLibraryLayout (x : List Char) : List Char :=
  let lv := pyStrip (lowerL x)
  if lv = "paired".data ∨ lv = "pair".data ∨ lv = "pe".data then "paired".data
  else if lv = "single".data ∨ lv = "se".data then "single".data
  else x

/-- The per-cell constrained-field coercion (lines 729-735 of
`sra_validate.py`): a non-empty value outside `valid` is replaced by the
configured default when there is one; empty cells are left alone. -/
def coerceVocabCell (valid : List (List Char)) (dflt : Option (List Char))
    (v : List Char) : List Char :=
  if v ≠ [] ∧ ¬(v ∈ valid) then
    match dflt with
    | some d => d
    | none => v
  else v

/-- `VALID_OPTIONS['library_layout']`. -/
def libraryLayoutOptions : List (List Char) := ["paired".data, "single".data]

/-- `DEFAULT_VALUES['library_layout']`. -/
def libraryLayoutDefault : List Char := "paired".data

/-- C2, counterexample: the claim says every empty cell in a
controlled-vocabulary field is replaced by the configured default; but the
coercion skips empty cells (`value != ""` in line 732), so an empty
`library_layout` cell stays empty instead of becoming `"paired"`. -/
theorem claim_C2_counterexample :
    coerceVocabCell libraryLayoutOptions (some libraryLayoutDefault)
        (fixLibraryLayout []) = [] ∧
    ([] : List Char) ≠ libraryLayoutDefault := by
  refine ⟨rfl, ?_⟩
  decide

/-- C2 (amended): a value in the valid set is kept; a non-empty value
outside the set is replaced by the configured default (kept unchanged when
no default is configured); empty cells are skipped by the coercion, not
replaced; when the default itself belongs to the valid set the coercion
fixes exactly the members; the `library_layout` synonyms `pair`/`pe`
and `se` normalize to `paired` and `single` before membership is tested;
and end-to-end (the lambda followed by the vocabulary loop with
`VALID_OPTIONS` and `DEFAULT_VALUES`) every non-empty `library_layout`
value lands on `single` exactly when it lowercases and strips to
`single`/`se`, and on the default `paired` in every other case — so a
non-synonym value such as `Sxyz` becomes `paired`, not `single`. -/
theorem claim_C2_vocab_coercion (valid : List (List Char)) (d v : List Char) :
    (v ∈ valid → coerceVocabCell valid (some d) v = v) ∧
    (v ≠ [] → ¬(v ∈ valid) → coerceVocabCell valid (some d) v = d) ∧
    (coerceVocabCell valid (some d) [] = []) ∧
    (¬(v ∈ valid) → coerceVocabCell valid none v = v) ∧
    (d ∈ valid → v ≠ [] → (coerceVocabCell valid (some d) v = v ↔ v ∈ valid)) ∧
    (∀ x, pyStrip (lowerL x) = "pair".data ∨ pyStrip (lowerL x) = "pe".data →
      fixLibraryLayout x = "paired".data) ∧
    (∀ x, pyStrip (lowerL x) = "se".data → fixLibraryLayout x = "single".data) ∧
    (∀ x, x ≠ [] →
      coerceVocabCell libraryLayoutOptions (some libraryLayoutDefault)
          (fixLibraryLayout x) =
        if pyStrip (lowerL x) = "single".data ∨ pyStrip (lowerL x) = "se".data
        then "single".data else "paired".data) := by
  refine ⟨?_, ?_, ?_, ?_, ?_, ?_, ?_, ?_⟩
  · intro hv
    unfold coerceVocabCell
    rw [if_neg]
    rintro ⟨-, hx⟩
    exact hx hv
  · intro hne hnv
    unfold coerceVocabCell
    rw [if_pos ⟨hne, hnv⟩]
  · unfold coerceVocabCell
    rw [if_neg]
    rintro ⟨hx, -⟩
    exact hx rfl
  · intro hnv
    unfold coerceVocabCell
    by_cases hne : v = []
    · rw [if_neg]
      rintro ⟨hx, -⟩
      exact hx hne
    · rw [if_pos ⟨hne, hnv⟩]
  · intro hd hne
    constructor
    · intro he
      by_contra hnv
      unfold coerceVocabCell at he
      rw [if_pos ⟨hne, hnv⟩] at he
      exact hnv (he ▸ hd)
    · intro hv
      unfold coerceVocabCell
      rw [if_neg]
      rintro ⟨-, hx⟩
      exact hx hv
  · intro x hx
    unfold fixLibraryLayout
    rw [if_pos]
    rcases hx with hx | hx
    · exact Or.inr (Or.inl hx)
    · exact Or.inr (Or.inr hx)
  · intro x hx
    unfold fixLibraryLayout
    rw [if_neg, if_pos (Or.inr hx)]
    rw [hx]
    rintro (hy | hy | hy) <;> exact absurd hy (by decide)
  · intro x hne
    unfold fixLibraryLayout
    dsimp only
    by_cases h1 : pyStrip (lowerL x) = "paired".data ∨
        pyStrip (lowerL x) = "pair".data ∨ pyStrip (lowerL x) = "pe".data
    · rw [if_pos h1]
      have hcond : ¬ (pyStrip (lowerL x) = "single".data ∨
          pyStrip (lowerL x) = "se".data) := by
        rintro (hs | hs) <;> rcases h1 with h1 | h1 | h1 <;>
          (rw [hs] at h1; exact absurd h1 (by decide))
      rw [if_neg hcond]
      decide
    · rw [if_neg h1]
      by_cases h2 : pyStrip (lowerL x) = "single".data ∨
          pyStrip (lowerL x) = "se".data
      · rw [if_pos h2, if_pos h2]
        decide
      · rw [if_neg h2, if_neg h2]
        have hxo : ¬ x ∈ libraryLayoutOptions := by
          intro hx
          rcases (by simpa [libraryLayoutOptions] using hx :
              x = "paired".data ∨ x = "single".data) with hx | hx
          · exact h1 (Or.inl (by rw [hx]; decide))
          · exact h2 (Or.inl (by rw [hx]; decide))
        unfold coerceVocabCell
        rw [if_pos ⟨hne, hxo⟩]
        rfl

/-- Witness for C2's amended theorem over the actual `library_layout`
options and default. -/
theorem claim_C2_witness :
    coerceVocabCell libraryLayoutOptions (some libraryLayoutDefault)
        "bogus".data = libraryLayoutDefault ∧
    fixLibraryLayout "PE".data = "paired".data ∧
    coerceVocabCell libraryLayoutOptions (some libraryLayoutDefault)
        (fixLibraryLayout "Sxyz".data) = "paired".data :=
  ⟨(claim_C2_vocab_coercion libraryLayoutOptions libraryLayoutDefault
      "bogus".data).2.1 (by decide) (by decide),
   (claim_C2_vocab_coercion libraryLayoutOptions libraryLayoutDefault
      "bogus".data).2.2.2.2.2.1 "PE".data (Or.inr (by decide)),
   ((claim_C2_vocab_coercion libraryLayoutOptions libraryLayoutDefault
      "bogus".data).2.2.2.2.2.2.2 "Sxyz".data (by decide)).trans (by decide)⟩

/-! ## First-occurrence deduplication and a stable descending sort

`list(dict.fromkeys(xs))` keeps the first occurrence of each element in
insertion order; `keepFirsts` implements exactly that.  `value_counts()`
orders the distinct values by descending count with ties in
first-appearance order; `sortByCountDesc` is that stable sort. -/

def keepFirstsAux {α : Type} [DecidableEq α] (seen : List α) : List α → List α
  | [] => []
  | x :: xs => if x ∈ seen then keepFirstsAux seen xs
               else x :: keepFirstsAux (x :: seen) xs

def keepFirsts {α : Type} [DecidableEq α] (l : List α) : List α :=
  keepFirstsAux [] l

theorem keepFirstsAux_mem {α : Type} [DecidableEq α] :
    ∀ (l seen : List α) (a : α),
      a ∈ keepFirstsAux seen l ↔ a ∈ l ∧ a ∉ seen := by
  intro l
  induction l with
  | nil => intro seen a; simp [keepFirstsAux]
  | cons x xs ih =>
    intro seen a
    unfold keepFirstsAux
    by_cases hx : x ∈ seen
    · rw [if_pos hx, ih]
      constructor
      · rintro ⟨h1, h2⟩
        exact ⟨List.mem_cons_of_mem _ h1, h2⟩
      · rintro ⟨h1, h2⟩
        rcases List.mem_cons.1 h1 with rfl | h1
        · exact absurd hx h2
        · exact ⟨h1, h2⟩
    · rw [if_neg hx]
      constructor
      · intro hmem
        rcases List.mem_cons.1 hmem with rfl | hmem
        · exact ⟨List.mem_cons_self _ _, hx⟩
        · obtain ⟨h1, h2⟩ := (ih (x :: seen) a).1 hmem
          exact ⟨List.mem_cons_of_mem _ h1,
            fun hs => h2 (List.mem_cons_of_mem _ hs)⟩
      · rintro ⟨hmem, h2⟩
        rcases List.mem_cons.1 hmem with rfl | h1
        · exact List.mem_cons_self _ _
        · by_cases hax : a = x
          · exact hax ▸ List.mem_cons_self _ _
          · refine List.mem_cons_of_mem _ ((ih (x :: seen) a).2 ⟨h1, fun hs => ?_⟩)
            rcases List.mem_cons.1 hs with h | h
            · exact hax h
            · exact h2 h

theorem keepFirstsAux_nodup {α : Type} [DecidableEq α] :
    ∀ (l seen : List α), (keepFirstsAux seen l).Nodup := by
  intro l
  induction l with
  | nil => intro seen; simp [keepFirstsAux]
  | cons x xs ih =>
    intro seen
    unfold keepFirstsAux
    by_cases hx : x ∈ seen
    · rw [if_pos hx]; exact ih seen
    · rw [if_neg hx]
      refine List.nodup_cons.2 ⟨?_, ih _⟩
      intro hmem
      exact ((keepFirstsAux_mem _ _ _).1 hmem).2 (List.mem_cons_self _ _)

theorem keepFirstsAux_sublist {α : Type} [DecidableEq α] :
    ∀ (l seen : List α), (keepFirstsAux seen l).Sublist l := by
  intro l
  induction l with
  | nil => intro seen; simp [keepFirstsAux]
  | cons x xs ih =>
    intro seen
    unfold keepFirstsAux
    by_cases hx : x ∈ seen
    · rw [if_pos hx]; exact (ih seen).cons x
    · rw [if_neg hx]; exact (ih _).cons₂ x

theorem keepFirsts_mem {α : Type} [DecidableEq α] {l : List α} {a : α} :
    a ∈ keepFirsts l ↔ a ∈ l := by
  unfold keepFirsts
  rw [keepFirstsAux_mem]
  simp

theorem keepFirsts_nodup {α : Type} [DecidableEq α] (l : List α) :
    (keepFirsts l).Nodup :=
  keepFirstsAux_nodup l []

theorem keepFirsts_sublist {α : Type} [DecidableEq α] (l : List α) :
    (keepFirsts l).Sublist l :=
  keepFirstsAux_sublist l []

/-- Stable insertion into a descending-by-count list: the new element goes
before the first strictly-smaller count, after earlier ties. -/
def insertByCount {α : Type} (cnt : α → Nat) (x : α) : List α → List α
  | [] => [x]
  | y :: ys => if cnt x < cnt y then y :: insertByCount cnt x ys else x :: y :: ys

/-- Stable sort by descending count (the order of `value_counts()`). -/
def sortByCountDesc {α : Type} (cnt : α → Nat) : List α → List α
  | [] => []
  | x :: xs => insertByCount cnt x (sortByCountDesc cnt xs)

theorem insertByCount_perm {α : Type} (cnt : α → Nat) (x : α) :
    ∀ l : List α, (insertByCount cnt x l).Perm (x :: l) := by
  intro l
  induction l with
  | nil => exact List.Perm.refl _
  | cons y ys ih =>
    unfold insertByCount
    split
    · exact ((ih.cons y).trans (List.Perm.swap x y ys))
    · exact List.Perm.refl _

theorem sortByCountDesc_perm {α : Type} (cnt : α → Nat) :
    ∀ l : List α, (sortByCountDesc cnt l).Perm l := by
  intro l
  induction l with
  | nil => exact List.Perm.refl _
  | cons x xs ih =>
    unfold sortByCountDesc
    exact (insertByCount_perm cnt x _).trans (ih.cons x)

theorem sortByCountDesc_mem {α : Type} (cnt : α → Nat) {l : List α} {a : α} :
    a ∈ sortByCountDesc cnt l ↔ a ∈ l :=
  (sortByCountDesc_perm cnt l).mem_iff

theorem sortByCountDesc_nodup {α : Type} (cnt : α → Nat) {l : List α}
    (h : l.Nodup) : (sortByCountDesc cnt l).Nodup :=
  ((sortByCountDesc_perm cnt l).nodup_iff).2 h

/-! ## Duplicate sample-name detection (C8) -/

/-- `df[df['sample_name'] == dup].index.tolist()`: the positional indices at
which `n` occurs. -/
def indicesOf (names : List (List Char)) (n : List Char) : List Nat :=
  (List.range names.length).filter (fun i => decide (names.get? i = some n))

/-- `check_duplicate_sample_names` of `sra_validate.py` (lines 348-382),
over the `sample_name` column: one record per distinct duplicated name
(`value_counts()` order: descending count, ties by first appearance),
carrying the occurrence count and all row indices. -/
def check_duplicate_sample_names (names : List (List Char)) :
    List (List Char × Nat × List Nat) :=
  let counts := fun n => names.count n
  let dups := sortByCountDesc counts
    ((keepFirsts names).filter (fun n => decide (1 < counts n)))
  dups.map (fun n => (n, counts n, indicesOf names n))

/-- The duplicate-check step of `validate_sample_metadata` (lines 666-672):
it only reports; `validated_df` is not reassigned. -/
def duplicateCheckStep (names : List (List Char)) :
    List (List Char) × List (List Char × Nat × List Nat) :=
  (names, check_duplicate_sample_names names)

theorem indicesOf_mem {names : List (List Char)} {n : List Char} {i : Nat} :
    i ∈ indicesOf names n ↔ names.get? i = some n := by
  unfold indicesOf
  rw [List.mem_filter]
  constructor
  · rintro ⟨-, h⟩
    simpa using h
  · intro h
    refine ⟨List.mem_range.2 ?_, by simpa using h⟩
    rcases lt_or_ge i names.length with hlt | hge
    · exact hlt
    · rw [List.get?_eq_none.2 hge] at h
      exact absurd h (by simp)

theorem dupNames_mem {names : List (List Char)} {n : List Char} :
    n ∈ (check_duplicate_sample_names names).map Prod.fst ↔ 2 ≤ names.count n := by
  unfold check_duplicate_sample_names
  dsimp only
  rw [List.map_map]
  have he : (Prod.fst ∘ fun n : List Char =>
      (n, names.count n, indicesOf names n)) = id := rfl
  rw [he, List.map_id, sortByCountDesc_mem, List.mem_filter]
  constructor
  · rintro ⟨-, h⟩
    have := of_decide_eq_true h
    omega
  · intro h
    refine ⟨keepFirsts_mem.2 ?_, decide_eq_true (by omega)⟩
    exact List.count_pos_iff.1 (by omega)

/-- C8: duplicate detection records exactly one issue per distinct
duplicated `sample_name` (a name appears among the reported issues iff it
occurs at least twice, and the reported names are pairwise distinct); each
issue carries the name's occurrence count and exactly its row indices; the
keys `[a,a,b]` yield exactly the single issue `(a, 2, [0,1])`; and the step
removes no rows from the table. -/
theorem claim_C8_duplicate_detection (names : List (List Char)) :
    (∀ n, n ∈ (check_duplicate_sample_names names).map Prod.fst ↔
      2 ≤ names.count n) ∧
    ((check_duplicate_sample_names names).map Prod.fst).Nodup ∧
    (∀ e ∈ check_duplicate_sample_names names,
      e.2.1 = names.count e.1 ∧ ∀ i, i ∈ e.2.2 ↔ names.get? i = some e.1) ∧
    check_duplicate_sample_names ["a".data, "a".data, "b".data] =
      [("a".data, 2, [0, 1])] ∧
    (duplicateCheckStep names).1 = names := by
  refine ⟨fun n => dupNames_mem, ?_, ?_, by decide, rfl⟩
  · unfold check_duplicate_sample_names
    dsimp only
    rw [List.map_map]
    have he : (Prod.fst ∘ fun n : List Char =>
        (n, names.count n, indicesOf names n)) = id := rfl
    rw [he, List.map_id]
    exact sortByCountDesc_nodup _ ((keepFirsts_nodup names).filter _)
  · intro e he
    unfold check_duplicate_sample_names at he
    simp only [List.mem_map] at he
    obtain ⟨m, -, rfl⟩ := he
    exact ⟨rfl, fun i => indicesOf_mem⟩

/-! ## Cross-table key reconciliation (C9) -/

/-- `set(df['sample_name'].dropna().tolist())`: the set of non-null keys of
a column (`sra_validate.py` lines 1145-1146). -/
def keySet (col : List (Option (List Char))) : Finset (List Char) :=
  (col.filterMap id).toFinset

/-- The cross-validation step of `validate_and_fix_metadata`
(`sra_validate.py` lines 1143-1166): `missing_in_bioproject` is the set
difference sample minus project, `missing_in_sample_metadata` the
difference project minus sample. -/
def reconcile (sampleCol projectCol : List (Option (List Char))) :
    Finset (List Char) × Finset (List Char) :=
  (keySet sampleCol \ keySet projectCol, keySet projectCol \ keySet sampleCol)

theorem keySet_mem {col : List (Option (List Char))} {k : List Char} :
    k ∈ keySet col ↔ some k ∈ col := by
  unfold keySet
  rw [List.mem_toFinset, List.mem_filterMap]
  constructor
  · rintro ⟨a, ha, rfl⟩
    exact ha
  · intro h
    exact ⟨some k, h, rfl⟩

/-- C9: reconciliation returns exactly the two primary-key set differences
(an element lies in `onlyInSample` iff it is a non-null sample key and not a
project key, and symmetrically), and the two result sets are disjoint. -/
theorem claim_C9_reconciliation (sampleCol projectCol : List (Option (List Char))) :
    (reconcile sampleCol projectCol).1 = keySet sampleCol \ keySet projectCol ∧
    (reconcile sampleCol projectCol).2 = keySet projectCol \ keySet sampleCol ∧
    (∀ k, k ∈ (reconcile sampleCol projectCol).1 ↔
      some k ∈ sampleCol ∧ some k ∉ projectCol) ∧
    (∀ k, k ∈ (reconcile sampleCol projectCol).2 ↔
      some k ∈ projectCol ∧ some k ∉ sampleCol) ∧
    Disjoint (reconcile sampleCol projectCol).1 (reconcile sampleCol projectCol).2 := by
  refine ⟨rfl, rfl, ?_, ?_, ?_⟩
  · intro k
    unfold reconcile
    rw [Finset.mem_sdiff, keySet_mem, keySet_mem]
  · intro k
    unfold reconcile
    rw [Finset.mem_sdiff, keySet_mem, keySet_mem]
  · exact disjoint_sdiff_sdiff

/-! ## Guarded sample removal (C10) -/

/-- A metadata table: named columns and rows of string cells. -/
structure Table where
  cols : List (List Char)
  rows : List (List (List Char))
deriving DecidableEq

def sampleNameCol : List Char := "sample_name".data

/-- The `sample_name` cell of a row (none when the column is absent or the
row is short; `isin` is false on missing values, so such rows are kept). -/
def rowKey (cols : List (List Char)) (row : List (List Char)) :
    Option (List Char) :=
  (cols.indexOf? sampleNameCol).bind (fun i => row.get? i)

/-- `df = df[~df['sample_name'].isin(samples_to_remove)]`, guarded by
`'sample_name' in df.columns` (`sra_validate.py` lines 530-548). -/
def dropSamples (t : Table) (remove : List (List Char)) : Table :=
  if sampleNameCol ∈ t.cols then
    ⟨t.cols, t.rows.filter (fun r =>
      match rowKey t.cols r with
      | some k => decide (k ∉ remove)
      | none => true)⟩
  else t

/-- The `try` body of `remove_samples_with_missing_files` (lines 528-556):
every operation in it is total, so it always returns normally. -/
def removeBody (sample_df : Table) (bioproject_df : Option Table)
    (samples_to_remove : List (List Char)) :
    Except (List Char) (Table × Option Table × List (List Char)) :=
  Except.ok (dropSamples sample_df samples_to_remove,
    bioproject_df.map (fun b => dropSamples b samples_to_remove),
    samples_to_remove)

/-- The `except Exception` arm (lines 558-564): on any error the ORIGINAL
dataframes are returned with an empty removed list. -/
def removeGuard (sample_df : Table) (bioproject_df : Option Table)
    (r : Except (List Char) (Table × Option Table × List (List Char))) :
    Table × Option Table × List (List Char) :=
  match r with
  | Except.ok v => v
  | Except.error _ => (sample_df, bioproject_df, [])

/-- `remove_samples_with_missing_files` (`sra_validate.py` lines 507-564):
`missing_by_sample` is a key-value mapping; an empty key list short-circuits
(lines 519-522). -/
def remove_samples_with_missing_files (sample_df : Table)
    (bioproject_df : Option Table)
    (missing_by_sample : List (List Char × List (List Char))) :
    Table × Option Table × List (List Char) :=
  let samples_to_remove := missing_by_sample.map Prod.fst
  if samples_to_remove.isEmpty then (sample_df, bioproject_df, [])
  else removeGuard sample_df bioproject_df
    (removeBody sample_df bioproject_df samples_to_remove)

/-- C10: sample removal never raises and is atomic: an empty
missing-files mapping returns both input tables unchanged with an empty
removed list; the removal body always returns normally (so the exception
arm is the only other path); and on any internal error the guard returns
the original tables unchanged with an empty removed list.  Moreover the
normal path never invents rows: each output table's rows form a sublist of
the corresponding input's rows. -/
theorem claim_C10_removal_atomic (sample_df : Table)
    (bioproject_df : Option Table)
    (missing_by_sample : List (List Char × List (List Char))) :
    (missing_by_sample = [] →
      remove_samples_with_missing_files sample_df bioproject_df
        missing_by_sample = (sample_df, bioproject_df, [])) ∧
    (∀ keys, ∃ v, removeBody sample_df bioproject_df keys = Except.ok v) ∧
    (∀ e, removeGuard sample_df bioproject_df (Except.error e) =
      (sample_df, bioproject_df, [])) ∧
    ((remove_samples_with_missing_files sample_df bioproject_df
        missing_by_sample).1.rows.Sublist sample_df.rows ∧
      (remove_samples_with_missing_files sample_df bioproject_df
        missing_by_sample).1.cols = sample_df.cols) := by
  refine ⟨?_, fun keys => ⟨_, rfl⟩, fun e => rfl, ?_⟩
  · rintro rfl
    rfl
  · unfold remove_samples_with_missing_files
    dsimp only
    split
    · exact ⟨List.Sublist.refl _, rfl⟩
    · unfold removeGuard removeBody dropSamples
      dsimp only
      split
    
      · exact ⟨List.filter_sublist _, rfl⟩
      · exact ⟨List.Sublist.refl _, rfl⟩

/-- Concrete run of the empty-mapping fast path and the error arm. -/
theorem claim_C10_witness :
    remove_samples_with_missing_files ⟨[sampleNameCol], [["s1".data]]⟩
      (some ⟨[sampleNameCol], [["s1".data]]⟩) [] =
      (⟨[sampleNameCol], [["s1".data]]⟩,
        some ⟨[sampleNameCol], [["s1".data]]⟩, []) ∧
    removeGuard ⟨[sampleNameCol], [["s1".data]]⟩
      (some ⟨[sampleNameCol], [["s1".data]]⟩) (Except.error "boom".data) =
      (⟨[sampleNameCol], [["s1".data]]⟩,
        some ⟨[sampleNameCol], [["s1".data]]⟩, []) :=
  ⟨(claim_C10_removal_atomic ⟨[sampleNameCol], [["s1".data]]⟩
      (some ⟨[sampleNameCol], [["s1".data]]⟩) []).1 rfl,
   (claim_C10_removal_atomic ⟨[sampleNameCol], [["s1".data]]⟩
      (some ⟨[sampleNameCol], [["s1".data]]⟩) []).2.2.1 "boom".data⟩

/-! ## File existence checking: shared infrastructure (C6, C7) -/

/-- The canonical filename columns, in the order both checkers scan them. -/
def fileColumns : List (List Char) :=
  ["filename".data, "filename2".data, "filepath".data, "filepath2".data,
   "file1".data, "file2".data]

/-- `[col for col in filename_columns if col in df.columns]`. -/
def existingColumns (t : Table) : List (List Char) :=
  fileColumns.filter (fun c => decide (c ∈ t.cols))

/-- `row.get(col)`: the cell in a named column (none when absent). -/
def cellOf (cols : List (List Char)) (row : List (List Char))
    (c : List Char) : Option (List Char) :=
  (cols.indexOf? c).bind (fun i => row.get? i)

/-- Decimal digits of a natural number (fuel-indexed so it computes). -/
def natToStrF : Nat → Nat → List Char
  | 0, _ => []
  | fuel + 1, n =>
    if n < 10 then [Char.ofNat (48 + n)]
    else natToStrF fuel (n / 10) ++ [Char.ofNat (48 + n % 10)]

def natToStr (n : Nat) : List Char := natToStrF (n + 1) n

/-- `row.get('sample_name', f"Row_\x7bidx\x7d")`. -/
def sampleOf (cols : List (List Char)) (row : List (List Char)) (idx : Nat) :
    List Char :=
  match cellOf cols row sampleNameCol with
  | some k => k
  | none => "Row_".data ++ natToStr idx

/-- `os.path.isabs` on POSIX: the path starts with a slash. -/
def isAbsPath (f : List Char) : Bool := decide (f.head? = some '/')

/-- `os.path.join(b, f)` for a relative `f` and nonempty `b` on POSIX. -/
def pyJoin (b f : List Char) : List Char :=
  if b.getLast? = some '/' then b ++ f else b ++ '/' :: f

/-- The shared path-resolution rule of both checkers and the collector:
absolute paths stand; otherwise a truthy (nonempty) base directory is
joined on; otherwise the value itself is the path. -/
def resolvePath (base : Option (List Char)) (f : List Char) : List Char :=
  if isAbsPath f then f
  else
    match base with
    | some b => if b = [] then f else pyJoin b f
    | none => f

/-- One file check: the (stripped) cell value, the row's sample name, and
the column it came from — the tuples of `file_info_list`. -/
structure FileTask where
  file : List Char
  sample : List Char
  column : List Char
deriving DecidableEq

/-- The checks one row contributes: one per present filename column whose
cell strips to a nonempty string (blank and missing cells are skipped). -/
def rowTasks (cols ecols : List (List Char)) (row : List (List Char))
    (idx : Nat) : List FileTask :=
  ecols.filterMap (fun c =>
    match cellOf cols row c with
    | none => none
    | some v =>
      if pyStrip v = [] then none
      else some ⟨pyStrip v, sampleOf cols row idx, c⟩)

def tasksFrom (cols ecols : List (List Char)) :
    Nat → List (List (List Char)) → List FileTask
  | _, [] => []
  | idx, row :: rest =>
    rowTasks cols ecols row idx ++ tasksFrom cols ecols (idx + 1) rest

/-- All file checks of a table, in the row-major order both functions
enumerate them. -/
def fileTasks (t : Table) : List FileTask :=
  tasksFrom t.cols (existingColumns t) 0 t.rows

/-- Python `dict` lookup over an insertion-ordered association list. -/
def dictGet {V : Type} (d : List (List Char × V)) (k : List Char) : Option V :=
  match d with
  | [] => none
  | (q, v) :: rest => if q = k then some v else dictGet rest k

/-- `d[k] = v`: overwrite in place, or insert at the end. -/
def dictSet {V : Type} (d : List (List Char × V)) (k : List Char) (v : V) :
    List (List Char × V) :=
  match d with
  | [] => [(k, v)]
  | (q, w) :: rest =>
    if q = k then (k, v) :: rest else (q, w) :: dictSet rest k v

/-- `d.setdefault(k, []).append(v)`: extend the key's list in place, or
insert a singleton at the end. -/
def dictAppend {V : Type} (d : List (List Char × List V)) (k : List Char)
    (v : V) : List (List Char × List V) :=
  match d with
  | [] => [(k, [v])]
  | (q, vs) :: rest =>
    if q = k then (q, vs ++ [v]) :: rest else (q, vs) :: dictAppend rest k v

/-! ## Sequential checker: `check_files_exist` (sra_validate 441-505) -/

/-- `sample_missing_files` for one row: a `(column, resolved path)` entry
per check whose path does not exist. -/
def rowMissing (base : Option (List Char)) (fs : List Char → Bool)
    (tasks : List FileTask) : List (List Char × List Char) :=
  tasks.filterMap (fun tk =>
    let p := resolvePath base tk.file
    if fs p then none else some (tk.column, p))

/-- The row loop: missing paths accumulate in scan order; a row with
missing files ASSIGNS `missing_by_sample[sample] = entries`, overwriting
any previous row with the same sample name. -/
def seqRows (cols ecols : List (List Char)) (base : Option (List Char))
    (fs : List Char → Bool) :
    Nat → List (List Char) × List (List Char × List (List Char × List Char)) →
    List (List (List Char)) →
    List (List Char) × List (List Char × List (List Char × List Char))
  | _, acc, [] => acc
  | idx, acc, row :: rest =>
    let rm := rowMissing base fs (rowTasks cols ecols row idx)
    seqRows cols ecols base fs (idx + 1)
      (acc.1 ++ rm.map Prod.snd,
       if rm = [] then acc.2 else dictSet acc.2 (sampleOf cols row idx) rm)
      rest

/-- `check_files_exist(df, base_dir)`: `(all_exist, missing_files,
missing_by_sample)`, with the early return when no filename column is
present. -/
def check_files_exist (t : Table) (base : Option (List Char))
    (fs : List Char → Bool) :
    Bool × List (List Char) × List (List Char × List (List Char × List Char)) :=
  if existingColumns t = [] then (true, [], [])
  else
    let r := seqRows t.cols (existingColumns t) base fs 0 ([], []) t.rows
    (r.1.isEmpty, r.1, r.2)

/-! ## Concurrent checker: `check_files_exist_parallel`
(sra_main_optimized 199-272).  Each completed check appends, under the
lock, either its path to `existing_files` or a `(sample, column, path)`
record to `missing_files`; the list argument `cs` is the order in which
the checks complete, an arbitrary permutation of the prepared task list. -/

def parStep (base : Option (List Char)) (fs : List Char → Bool)
    (acc : List (List Char) × List (List Char × List Char × List Char))
    (tk : FileTask) :
    List (List Char) × List (List Char × List Char × List Char) :=
  let full := resolvePath base tk.file
  if fs full then (acc.1 ++ [full], acc.2)
  else (acc.1, acc.2 ++ [(tk.sample, tk.column, full)])

def parClassify (base : Option (List Char)) (fs : List Char → Bool)
    (cs : List FileTask) :
    List (List Char) × List (List Char × List Char × List Char) :=
  cs.foldl (parStep base fs) ([], [])

/-- The grouping pass over `missing_files` in its accumulated order:
per-sample lists GROW by appending. -/
def groupBySample (ms : List (List Char × List Char × List Char)) :
    List (List Char × List (List Char × List Char)) :=
  ms.foldl (fun d m => dictAppend d m.1 (m.2.1, m.2.2)) []

def check_files_exist_parallel (base : Option (List Char))
    (fs : List Char → Bool) (cs : List FileTask) :
    Bool × List (List Char × List Char × List Char) ×
      List (List Char × List (List Char × List Char)) :=
  let r := parClassify base fs cs
  (r.2.isEmpty, r.2, groupBySample r.2)

/-! ## Classification summaries used to compare the two checkers -/

def missingPaths (base : Option (List Char)) (fs : List Char → Bool)
    (ts : List FileTask) : List (List Char) :=
  (ts.filter (fun tk => !fs (resolvePath base tk.file))).map
    (fun tk => resolvePath base tk.file)

def existingPaths (base : Option (List Char)) (fs : List Char → Bool)
    (ts : List FileTask) : List (List Char) :=
  (ts.filter (fun tk => fs (resolvePath base tk.file))).map
    (fun tk => resolvePath base tk.file)

def badSamples (base : Option (List Char)) (fs : List Char → Bool)
    (ts : List FileTask) : List (List Char) :=
  (ts.filter (fun tk => !fs (resolvePath base tk.file))).map FileTask.sample

def missEntries (base : Option (List Char)) (fs : List Char → Bool)
    (ts : List FileTask) : List (List Char × List Char × List Char) :=
  (ts.filter (fun tk => !fs (resolvePath base tk.file))).map
    (fun tk => (tk.sample, tk.column, resolvePath base tk.file))

/-! ## File collector: `collect_sequence_files`
(sra_main_optimized 274-330) -/

/-- One row's contribution: per available key, skip blank cells, resolve
the UNSTRIPPED cell value, keep the path only if it exists. -/
def collectRow (cols akeys : List (List Char)) (base : Option (List Char))
    (fs : List Char → Bool) (row : List (List Char)) : List (List Char) :=
  akeys.filterMap (fun k =>
    match cellOf cols row k with
    | none => none
    | some v =>
      if pyStrip v = [] then none
      else
        let p := resolvePath base v
        if fs p then some p else none)

/-- `collect_sequence_files`: gather existing resolved paths row-major,
then `list(dict.fromkeys(files))` (first-occurrence dedup). -/
def collect_sequence_files (t : Table) (base : Option (List Char))
    (fs : List Char → Bool) : List (List Char) :=
  if existingColumns t = [] then []
  else keepFirsts (t.rows.flatMap (collectRow t.cols (existingColumns t) base fs))

/-- Reference rendering of the spec's “each resolved path exactly once, in
first-seen order”: scan left to right, appending each path not seen yet. -/
def firstSeen {α : Type} [DecidableEq α] (l : List α) : List α :=
  l.foldl (fun acc x => if x ∈ acc then acc else acc ++ [x]) []

/-! ## Lemmas about the two checkers -/

theorem rowMissing_map_snd (base : Option (List Char)) (fs : List Char → Bool) :
    ∀ ts : List FileTask,
      (rowMissing base fs ts).map Prod.snd = missingPaths base fs ts := by
  intro ts
  induction ts with
  | nil => rfl
  | cons tk rest ih =>
    cases h : fs (resolvePath base tk.file) with
    | true => simp only [rowMissing, missingPaths, List.filterMap_cons,
        List.filter_cons, h] at ih ⊢ <;> simp [h, ih]
    | false => simp only [rowMissing, missingPaths, List.filterMap_cons,
        List.filter_cons, h] at ih ⊢ <;> simp [h, ih]

theorem missingPaths_append (base : Option (List Char)) (fs : List Char → Bool)
    (l1 l2 : List FileTask) :
    missingPaths base fs (l1 ++ l2) =
      missingPaths base fs l1 ++ missingPaths base fs l2 := by
  unfold missingPaths
  rw [List.filter_append, List.map_append]

theorem badSamples_append (base : Option (List Char)) (fs : List Char → Bool)
    (l1 l2 : List FileTask) :
    badSamples base fs (l1 ++ l2) =
      badSamples base fs l1 ++ badSamples base fs l2 := by
  unfold badSamples
  rw [List.filter_append, List.map_append]

theorem seqRows_missing (cols ecols : List (List Char))
    (base : Option (List Char)) (fs : List Char → Bool) :
    ∀ (rows : List (List (List Char))) (idx : Nat) acc,
      (seqRows cols ecols base fs idx acc rows).1 =
        acc.1 ++ missingPaths base fs (tasksFrom cols ecols idx rows) := by
  intro rows
  induction rows with
  | nil => intro idx acc; simp [seqRows, tasksFrom, missingPaths]
  | cons row rest ih =>
    intro idx acc
    simp only [seqRows, tasksFrom]
    rw [ih]
    dsimp only
    rw [missingPaths_append, rowMissing_map_snd, List.append_assoc]

theorem dictGet_dictSet {V : Type} (k q : List Char) (v : V) :
    ∀ d : List (List Char × V),
      dictGet (dictSet d k v) q = if k = q then some v else dictGet d q := by
  intro d
  induction d with
  | nil => simp [dictSet, dictGet]
  | cons e rest ih =>
    obtain ⟨w, u⟩ := e
    unfold dictSet
    by_cases h1 : w = k
    · subst h1
      by_cases h2 : w = q
      · simp [dictGet, h2]
      · simp [dictGet, h2]
    · rw [if_neg h1]
      by_cases h2 : w = q
      · subst h2
        have hkq : ¬ k = w := fun hc => h1 hc.symm
        simp [dictGet, hkq]
      · simp [dictGet, h2, ih]

theorem dictGet_dictAppend {V : Type} (k q : List Char) (v : V) :
    ∀ d : List (List Char × List V),
      dictGet (dictAppend d k v) q =
        if k = q then some ((dictGet d k).getD [] ++ [v]) else dictGet d q := by
  intro d
  induction d with
  | nil => simp [dictAppend, dictGet]
  | cons e rest ih =>
    obtain ⟨w, us⟩ := e
    unfold dictAppend
    by_cases h1 : w = k
    · subst h1
      by_cases h2 : w = q
      · simp [dictGet, h2]
      · simp [dictGet, h2]
    · rw [if_neg h1]
      by_cases h2 : w = q
      · subst h2
        have hkq : ¬ k = w := fun hc => h1 hc.symm
        simp [dictGet, hkq, h1]
      · simp [dictGet, h2, ih, h1]

theorem rowTasks_sample {cols ecols : List (List Char)}
    {row : List (List Char)} {idx : Nat} {tk : FileTask}
    (h : tk ∈ rowTasks cols ecols row idx) :
    tk.sample = sampleOf cols row idx := by
  unfold rowTasks at h
  rw [List.mem_filterMap] at h
  obtain ⟨c, -, hc⟩ := h
  rcases hcell : cellOf cols row c with _ | v
  · rw [hcell] at hc
    exact absurd hc (by simp)
  · rw [hcell] at hc
    dsimp only at hc
    by_cases hb : pyStrip v = []
    · rw [if_pos hb] at hc
      exact absurd hc (by simp)
    · rw [if_neg hb] at hc
      cases hc
      rfl

theorem rowMissing_eq_nil {base : Option (List Char)} {fs : List Char → Bool}
    {ts : List FileTask} :
    rowMissing base fs ts = [] ↔
      ∀ tk ∈ ts, fs (resolvePath base tk.file) = true := by
  unfold rowMissing
  rw [List.filterMap_eq_nil_iff]
  constructor
  · intro h tk htk
    have h2 := h tk htk
    dsimp only at h2
    cases hf : fs (resolvePath base tk.file)
    · rw [hf] at h2
      simp at h2
    · rfl
  · intro h tk htk
    dsimp only
    rw [h tk htk]
    rfl

theorem badSamples_mem {base : Option (List Char)} {fs : List Char → Bool}
    {ts : List FileTask} {s : List Char} :
    s ∈ badSamples base fs ts ↔
      ∃ tk ∈ ts, fs (resolvePath base tk.file) = false ∧ tk.sample = s := by
  unfold badSamples
  simp [and_assoc]

theorem seqRows_keys (cols ecols : List (List Char))
    (base : Option (List Char)) (fs : List Char → Bool) (s : List Char) :
    ∀ (rows : List (List (List Char))) (idx : Nat) acc,
      dictGet (seqRows cols ecols base fs idx acc rows).2 s ≠ none ↔
        dictGet acc.2 s ≠ none ∨
          s ∈ badSamples base fs (tasksFrom cols ecols idx rows) := by
  intro rows
  induction rows with
  | nil => intro idx acc; simp [seqRows, tasksFrom, badSamples]
  | cons row rest ih =>
    intro idx acc
    simp only [seqRows, tasksFrom]
    rw [ih]
    dsimp only
    rw [badSamples_append, List.mem_append]
    by_cases hrm : rowMissing base fs (rowTasks cols ecols row idx) = []
    · rw [if_pos hrm]
      have hnone : ¬ s ∈ badSamples base fs (rowTasks cols ecols row idx) := by
        intro hmem
        obtain ⟨tk, htk, hbad, -⟩ := badSamples_mem.1 hmem
        rw [rowMissing_eq_nil.1 hrm tk htk] at hbad
        exact absurd hbad (by simp)
      tauto
    · rw [if_neg hrm, dictGet_dictSet]
      have hks : s ∈ badSamples base fs (rowTasks cols ecols row idx) ↔
          sampleOf cols row idx = s := by
        constructor
        · intro hmem
          obtain ⟨tk, htk, -, hs⟩ := badSamples_mem.1 hmem
          rw [← hs, rowTasks_sample htk]
        · intro hκ
          have hne : ¬ ∀ tk ∈ rowTasks cols ecols row idx,
              fs (resolvePath base tk.file) = true :=
            fun hall => hrm (rowMissing_eq_nil.2 hall)
          push_neg at hne
          obtain ⟨tk, htk, hbad⟩ := hne
          exact badSamples_mem.2
            ⟨tk, htk, by simpa using hbad, (rowTasks_sample htk).trans hκ⟩
      by_cases hκs : sampleOf cols row idx = s
      · rw [if_pos hκs]
        simp only [hks]
        tauto
      · rw [if_neg hκs]
        simp only [hks]
        tauto

theorem parClassify_eq (base : Option (List Char)) (fs : List Char → Bool) :
    ∀ (cs : List FileTask) acc,
      cs.foldl (parStep base fs) acc =
        (acc.1 ++ existingPaths base fs cs, acc.2 ++ missEntries base fs cs) := by
  intro cs
  induction cs with
  | nil => intro acc; simp [existingPaths, missEntries]
  | cons tk rest ih =>
    intro acc
    rw [List.foldl_cons, ih]
    unfold parStep existingPaths missEntries
    dsimp only
    cases hf : fs (resolvePath base tk.file)
    · simp [List.filter_cons, hf]
    · simp [List.filter_cons, hf]

theorem groupKeys (s : List Char) :
    ∀ (ms : List (List Char × List Char × List Char))
      (d : List (List Char × List (List Char × List Char))),
      dictGet (ms.foldl (fun d m => dictAppend d m.1 (m.2.1, m.2.2)) d) s ≠ none ↔
        dictGet d s ≠ none ∨ s ∈ ms.map Prod.fst := by
  intro ms
  induction ms with
  | nil => intro d; simp
  | cons m rest ih =>
    intro d
    rw [List.foldl_cons, ih, dictGet_dictAppend]
    by_cases h : m.1 = s
    · simp [h]
    · have h2 : ¬ s = m.1 := fun hc => h hc.symm
      simp [h, h2]

theorem missEntries_paths (base : Option (List Char)) (fs : List Char → Bool)
    (cs : List FileTask) :
    (missEntries base fs cs).map (fun m => m.2.2) = missingPaths base fs cs := by
  unfold missEntries missingPaths
  rw [List.map_map]
  rfl

theorem missEntries_samples (base : Option (List Char)) (fs : List Char → Bool)
    (cs : List FileTask) :
    (missEntries base fs cs).map Prod.fst = badSamples base fs cs := by
  unfold missEntries badSamples
  rw [List.map_map]
  rfl

theorem tasksFrom_nil_ecols (cols : List (List Char)) :
    ∀ (rows : List (List (List Char))) (idx : Nat),
      tasksFrom cols [] idx rows = [] := by
  intro rows
  induction rows with
  | nil => intro idx; rfl
  | cons row rest ih =>
    intro idx
    simp [tasksFrom, rowTasks, ih]

theorem length_filter_bool {α : Type} (p : α → Bool) :
    ∀ l : List α,
      (l.filter p).length + (l.filter (fun a => !p a)).length = l.length := by
  intro l
  induction l with
  | nil => rfl
  | cons a l ih =>
    cases h : p a <;> simp [List.filter_cons, h] <;> omega

theorem isEmpty_eq_of_length_eq {α β : Type} {l1 : List α} {l2 : List β}
    (h : l1.length = l2.length) : l1.isEmpty = l2.isEmpty := by
  cases l1 <;> cases l2 <;> simp_all

/-! ## Lemmas about the collector -/

theorem keepFirstsAux_congr {α : Type} [DecidableEq α] :
    ∀ (l s₁ s₂ : List α), (∀ a, a ∈ s₁ ↔ a ∈ s₂) →
      keepFirstsAux s₁ l = keepFirstsAux s₂ l := by
  intro l
  induction l with
  | nil => intro s₁ s₂ h; rfl
  | cons x xs ih =>
    intro s₁ s₂ h
    unfold keepFirstsAux
    by_cases hx : x ∈ s₁
    · rw [if_pos hx, if_pos ((h x).1 hx)]
      exact ih s₁ s₂ h
    · rw [if_neg hx, if_neg (fun hc => hx ((h x).2 hc))]
      have he := ih (x :: s₁) (x :: s₂) (fun a => by
        rw [List.mem_cons, List.mem_cons, h a])
      rw [he]

theorem firstSeen_foldl {α : Type} [DecidableEq α] :
    ∀ (l acc : List α),
      l.foldl (fun acc x => if x ∈ acc then acc else acc ++ [x]) acc =
        acc ++ keepFirstsAux acc l := by
  intro l
  induction l with
  | nil => intro acc; simp [keepFirstsAux]
  | cons x xs ih =>
    intro acc
    rw [List.foldl_cons]
    unfold keepFirstsAux
    by_cases hx : x ∈ acc
    · rw [if_pos hx, if_pos hx, ih]
    · rw [if_neg hx, if_neg hx, ih]
      rw [keepFirstsAux_congr xs (acc ++ [x]) (x :: acc) (fun a => by
        simp [List.mem_append, List.mem_cons, or_comm])]
      simp

theorem keepFirsts_eq_firstSeen {α : Type} [DecidableEq α] (l : List α) :
    keepFirsts l = firstSeen l := by
  unfold keepFirsts firstSeen
  rw [firstSeen_foldl]
  rfl

theorem collectRow_mem {cols akeys : List (List Char)}
    {base : Option (List Char)} {fs : List Char → Bool}
    {row : List (List Char)} {p : List Char} :
    p ∈ collectRow cols akeys base fs row ↔
      ∃ k ∈ akeys, ∃ v, cellOf cols row k = some v ∧ pyStrip v ≠ [] ∧
        fs (resolvePath base v) = true ∧ resolvePath base v = p := by
  unfold collectRow
  rw [List.mem_filterMap]
  constructor
  · rintro ⟨k, hk, hf⟩
    refine ⟨k, hk, ?_⟩
    rcases hcell : cellOf cols row k with _ | v
    · rw [hcell] at hf
      exact absurd hf (by simp)
    · rw [hcell] at hf
      dsimp only at hf
      by_cases hb : pyStrip v = []
      · rw [if_pos hb] at hf
        exact absurd hf (by simp)
      · rw [if_neg hb] at hf
        by_cases he : fs (resolvePath base v)
        · rw [if_pos he] at hf
          cases hf
          exact ⟨v, rfl, hb, he, rfl⟩
        · rw [if_neg he] at hf
          exact absurd hf (by simp)
  · rintro ⟨k, hk, v, hcell, hb, he, rfl⟩
    refine ⟨k, hk, ?_⟩
    rw [hcell]
    dsimp only
    rw [if_neg hb, if_pos he]

theorem flatMap_nil_fun {α β : Type} {f : α → List β}
    (h : ∀ a, f a = []) : ∀ l : List α, l.flatMap f = [] := by
  intro l
  induction l with
  | nil => rfl
  | cons a rest ih => rw [List.flatMap_cons, h a, ih]; rfl

/-! ## Claim C6 -/

/-- C6 counterexample: two rows sharing the sample name `a`, each with one
missing file.  The sequential checker's per-row dict ASSIGNMENT leaves only
the second row's entry under `a`, while the concurrent checker's grouping
APPENDS both entries — the per-sample groupings are not identical, already
at the natural completion order. -/
theorem claim_C6_counterexample :
    dictGet (check_files_exist
        ⟨[sampleNameCol, "filename".data],
          [["a".data, "f1".data], ["a".data, "f2".data]]⟩
        none (fun _ => false)).2.2 "a".data =
      some [("filename".data, "f2".data)] ∧
    dictGet (check_files_exist_parallel none (fun _ => false)
        (fileTasks ⟨[sampleNameCol, "filename".data],
          [["a".data, "f1".data], ["a".data, "f2".data]]⟩)).2.2 "a".data =
      some [("filename".data, "f1".data), ("filename".data, "f2".data)] ∧
    ¬ ((some [("filename".data, "f2".data)] :
          Option (List (List Char × List Char))) =
        some [("filename".data, "f1".data), ("filename".data, "f2".data)]) :=
  ⟨by decide, by decide, by decide⟩

/-- C6: for every table, base directory, existence oracle and completion
order (any permutation of the prepared checks), the sequential and the
concurrent checker agree on the all-exist flag and classify the same
multiset of missing paths; the concurrent accumulator accounts for every
check exactly once (existing plus missing counts equal the task count);
and the two per-sample groupings have the same key set.  (The grouped
VALUES can differ for duplicated sample names, as the counterexample
shows, so equality of groupings is stated at the level of keys.) -/
theorem claim_C6_concurrency_equivalence (t : Table)
    (base : Option (List Char)) (fs : List Char → Bool) (cs : List FileTask)
    (hperm : cs.Perm (fileTasks t)) :
    (check_files_exist t base fs).1 =
      (check_files_exist_parallel base fs cs).1 ∧
    ((check_files_exist_parallel base fs cs).2.1.map (fun m => m.2.2)).Perm
      (check_files_exist t base fs).2.1 ∧
    (parClassify base fs cs).1.length + (parClassify base fs cs).2.length =
      (fileTasks t).length ∧
    (∀ s, dictGet (check_files_exist t base fs).2.2 s ≠ none ↔
      dictGet (check_files_exist_parallel base fs cs).2.2 s ≠ none) := by
  have hpar2 : parClassify base fs cs =
      (existingPaths base fs cs, missEntries base fs cs) := by
    unfold parClassify
    rw [parClassify_eq]
    simp
  have hparFlag : (check_files_exist_parallel base fs cs).1 =
      (missEntries base fs cs).isEmpty := by
    unfold check_files_exist_parallel
    rw [hpar2]
  have hparMiss : (check_files_exist_parallel base fs cs).2.1 =
      missEntries base fs cs := by
    unfold check_files_exist_parallel
    rw [hpar2]
  have hparGroup : (check_files_exist_parallel base fs cs).2.2 =
      groupBySample (missEntries base fs cs) := by
    unfold check_files_exist_parallel
    rw [hpar2]
  have hMissPerm : (missingPaths base fs cs).Perm
      (missingPaths base fs (fileTasks t)) := (hperm.filter _).map _
  have hBadPerm : (badSamples base fs cs).Perm
      (badSamples base fs (fileTasks t)) := (hperm.filter _).map _
  have hlen : (missEntries base fs cs).length =
      (missingPaths base fs (fileTasks t)).length := by
    unfold missEntries missingPaths
    rw [List.length_map, List.length_map]
    exact ((hperm.filter _).length_eq)
  by_cases hecols : existingColumns t = []
  · have htasks : fileTasks t = [] := by
      unfold fileTasks
      rw [hecols]
      exact tasksFrom_nil_ecols _ _ _
    have hcs : cs = [] := by
      rw [htasks] at hperm
      exact hperm.eq_nil
    subst hcs
    refine ⟨?_, ?_, ?_, ?_⟩
    · simp [check_files_exist, hecols, check_files_exist_parallel, parClassify]
    · simp [check_files_exist, hecols, check_files_exist_parallel, parClassify]
    · simp [parClassify, htasks]
    · intro s
      simp [check_files_exist, hecols, check_files_exist_parallel,
        parClassify, groupBySample, dictGet]
  · have hseqMiss : (check_files_exist t base fs).2.1 =
        missingPaths base fs (fileTasks t) := by
      unfold check_files_exist
      rw [if_neg hecols]
      dsimp only
      rw [seqRows_missing]
      simp [fileTasks]
    have hseqFlag : (check_files_exist t base fs).1 =
        (missingPaths base fs (fileTasks t)).isEmpty := by
      unfold check_files_exist
      rw [if_neg hecols]
      dsimp only
      rw [seqRows_missing]
      simp [fileTasks]
    have hseqDict : (check_files_exist t base fs).2.2 =
        (seqRows t.cols (existingColumns t) base fs 0 ([], []) t.rows).2 := by
      unfold check_files_exist
      rw [if_neg hecols]
    refine ⟨?_, ?_, ?_, ?_⟩
    · rw [hseqFlag, hparFlag]
      exact (isEmpty_eq_of_length_eq hlen).symm
    · rw [hparMiss, hseqMiss, missEntries_paths]
      exact hMissPerm
    · rw [hpar2]
      dsimp only
      unfold existingPaths missEntries
      rw [List.length_map, List.length_map, ← hperm.length_eq]
      exact length_filter_bool _ cs
    · intro s
      rw [hseqDict, hparGroup]
      unfold groupBySample
      rw [seqRows_keys, groupKeys, missEntries_samples]
      constructor
      · rintro (h | h)
        · simp [dictGet] at h
        · exact Or.inr (hBadPerm.mem_iff.2 h)
      · rintro (h | h)
        · simp [dictGet] at h
        · exact Or.inr (hBadPerm.mem_iff.1 h)

/-- Concrete instance: one existing file, identity completion order; the
flags and the missing multisets agree. -/
theorem claim_C6_witness :
    (check_files_exist ⟨[sampleNameCol, "filename".data],
        [["a".data, "f1".data]]⟩ none (fun _ => false)).1 =
      (check_files_exist_parallel none (fun _ => false)
        (fileTasks ⟨[sampleNameCol, "filename".data],
          [["a".data, "f1".data]]⟩)).1 :=
  (claim_C6_concurrency_equivalence
    ⟨[sampleNameCol, "filename".data], [["a".data, "f1".data]]⟩
    none (fun _ => false) _ (List.Perm.refl _)).1

/-! ## Claim C7 -/

/-- C7: the collector resolves absolute cell values to themselves and
other non-empty values against a truthy base directory via the join; a
path is collected iff some row has a present filename column whose cell
strips nonblank and whose resolved path exists (blank cells are skipped);
and the final list holds each collected path exactly once, in first-seen
order (it equals the left-to-right first-occurrence scan, and is
duplicate-free). -/
theorem claim_C7_collector_resolution (t : Table) (base : Option (List Char))
    (fs : List Char → Bool) :
    (∀ v, isAbsPath v = true → resolvePath base v = v) ∧
    (∀ v b, isAbsPath v = false → base = some b → b ≠ [] →
      resolvePath base v = pyJoin b v) ∧
    (∀ p, p ∈ collect_sequence_files t base fs ↔
      ∃ row ∈ t.rows, ∃ k ∈ existingColumns t, ∃ v,
        cellOf t.cols row k = some v ∧ pyStrip v ≠ [] ∧
        fs (resolvePath base v) = true ∧ resolvePath base v = p) ∧
    (collect_sequence_files t base fs).Nodup ∧
    collect_sequence_files t base fs =
      firstSeen (t.rows.flatMap
        (collectRow t.cols (existingColumns t) base fs)) := by
  refine ⟨?_, ?_, ?_, ?_, ?_⟩
  · intro v hv
    unfold resolvePath
    rw [if_pos hv]
  · intro v b hv hb hbne
    unfold resolvePath
    rw [if_neg (by simp [hv]), hb]
    dsimp only
    rw [if_neg hbne]
  · intro p
    unfold collect_sequence_files
    by_cases hecols : existingColumns t = []
    · rw [if_pos hecols]
      simp [hecols]
    · rw [if_neg hecols, keepFirsts_mem, List.mem_flatMap]
      constructor
      · rintro ⟨row, hrow, hmem⟩
        exact ⟨row, hrow, collectRow_mem.1 hmem⟩
      · rintro ⟨row, hrow, hmem⟩
        exact ⟨row, hrow, collectRow_mem.2 hmem⟩
  · unfold collect_sequence_files
    by_cases hecols : existingColumns t = []
    · rw [if_pos hecols]
      exact List.nodup_nil
    · rw [if_neg hecols]
      exact keepFirsts_nodup _
  · unfold collect_sequence_files
    by_cases hecols : existingColumns t = []
    · rw [if_pos hecols]
      rw [flatMap_nil_fun (fun row => by
        rw [hecols]; rfl)]
      rfl
    · rw [if_neg hecols]
      exact keepFirsts_eq_firstSeen _

/-- Concrete resolutions through the claim: an absolute path stands, a
relative one joins the base. -/
theorem claim_C7_witness :
    resolvePath (some "/base".data) "/abs/x.fq".data = "/abs/x.fq".data ∧
    resolvePath (some "/base".data) "rel.fq".data =
      pyJoin "/base".data "rel.fq".data :=
  ⟨(claim_C7_collector_resolution ⟨[], []⟩ (some "/base".data)
      (fun _ => true)).1 "/abs/x.fq".data (by decide),
   (claim_C7_collector_resolution ⟨[], []⟩ (some "/base".data)
      (fun _ => true)).2.1 "rel.fq".data "/base".data (by decide) rfl
      (by decide)⟩

/-- Concrete instance of the duplicate-detection characterization at the
entry reported for the keys `[a, a, b]`. -/
theorem claim_C8_witness :
    ("a".data, 2, [0, 1]).2.1 =
      (["a".data, "a".data, "b".data] : List (List Char)).count "a".data ∧
    (0 ∈ ("a".data, 2, [0, 1]).2.2 ↔
      (["a".data, "a".data, "b".data] : List (List Char)).get? 0 =
        some "a".data) :=
  ⟨((claim_C8_duplicate_detection ["a".data, "a".data, "b".data]).2.2.1
      ("a".data, 2, [0, 1]) (by decide)).1,
   ((claim_C8_duplicate_detection ["a".data, "a".data, "b".data]).2.2.1
      ("a".data, 2, [0, 1]) (by decide)).2 0⟩

end SRA
